import Mathlib

/-!
Shallow embedding of the AH-Chips-and-Circuits routing engine
(`src/classes/chip.py`, `src/classes/occupancy.py`, `src/classes/wire.py`,
`src/algorithms/utils.py`, `src/algorithms/greed.py`,
`src/algorithms/random_algo.py`, `src/algorithms/A_star.py`,
`src/algorithms/IRRA.py`) together with theorems settling the frozen
claims about the natural-language specification.

Conventions of the embedding:
* coordinates are integer triples, as in the Python tuples;
* Python `set`s become `Finset`s; the `defaultdict` occupancy maps become
  total functions that are empty outside an explicitly tracked key set;
* a Python `Wire` object is identified by its index into an append-only
  arena (`ChipState.arena`), so object identity survives the replacement
  of a wire in `chip.wires` by `add_entire_wire`;
* loops whose termination depends on runtime data take an explicit fuel
  argument; `none` is "fuel exhausted" and `some r` is the value the
  Python loop returns;
* Python code paths that raise (`UnboundLocalError` in
  `calc_total_grid_cost`) are represented by `Option` results.
-/

/-- 3-D lattice coordinate, the `Coords_3D = tuple[int, int, int]` of
`src/algorithms/utils.py`. -/
abbrev Coords : Type := ℤ × ℤ × ℤ

/-- `utils.manhattan_distance`: the sum of absolute coordinate differences
(the Python value is a non-negative `int`, so `ℕ` carries it exactly). -/
def manhattan_distance (a b : Coords) : ℕ :=
  (a.1 - b.1).natAbs + (a.2.1 - b.2.1).natAbs + (a.2.2 - b.2.2).natAbs

/-- Python `<` on 3-tuples of ints (lexicographic), used by
`Chip.wires_in_collision` to orient an edge consistently and by the
`heapq` entries of `A_star.shortest_cable`. -/
def coordsLt (a b : Coords) : Bool :=
  a.1 < b.1 || (a.1 == b.1 && (a.2.1 < b.2.1 || (a.2.1 == b.2.1 && a.2.2 < b.2.2)))

/-- `utils.INTERSECTION_COST`. -/
def INTERSECTION_COST : ℤ := 300

/-- `utils.COLLISION_COST`. -/
def COLLISION_COST : ℤ := 1000000

/-- `utils.cost_function`. -/
def cost_function (wire_length intersect_amount collision_amount : ℤ) : ℤ :=
  wire_length + INTERSECTION_COST * intersect_amount + COLLISION_COST * collision_amount

/-- `Wire.are_points_neighbours`: Manhattan distance exactly 1. -/
def are_points_neighbours (a b : Coords) : Bool :=
  manhattan_distance a b == 1

/-- A `Wire` object of `src/classes/wire.py`: the two gate coordinates and
the ordered segment list (`coords_wire_segments`). -/
structure WireObj where
  gate1 : Coords
  gate2 : Coords
  coords_wire_segments : List Coords
  deriving DecidableEq, Repr, Inhabited

namespace WireObj

/-- `Wire.__init__`: a fresh wire holds exactly its two gate cells. -/
def make (g1 g2 : Coords) : WireObj :=
  { gate1 := g1, gate2 := g2, coords_wire_segments := [g1, g2] }

/-- `Wire.length`: number of segments minus one. -/
def length (w : WireObj) : ℤ :=
  (w.coords_wire_segments.length : ℤ) - 1

/-- The list of consecutive coordinate pairs of a segment list. -/
def consecutivePairs (l : List Coords) : List (Coords × Coords) :=
  l.zip l.tail

/-- `Wire.is_wire_connected`: every consecutive pair is a 6-neighbour. -/
def is_wire_connected (w : WireObj) : Bool :=
  (consecutivePairs w.coords_wire_segments).all fun p => are_points_neighbours p.1 p.2

/-- Python `list.insert(-1, c)`: insert before the last element. -/
def insertBeforeLast (l : List Coords) (c : Coords) : List Coords :=
  l.take (l.length - 1) ++ c :: l.drop (l.length - 1)

/-- Python `list.insert(1, c)`: insert after the first element. -/
def insertAfterFirst (l : List Coords) (c : Coords) : List Coords :=
  l.take 1 ++ c :: l.drop 1

/-- The `segments[-2]` read of `Wire.append_wire_segment` (every live wire
has at least two segments, so the fallback default is never read). -/
def secondLast (l : List Coords) : Coords :=
  l.getD (l.length - 2) default

/-- `Wire.append_wire_segment`: skip gate coordinates; insert before the
last element when adjacent to `segments[-2]`, else after the first when
adjacent to `segments[1]`; otherwise silently ignore. -/
def append_wire_segment (w : WireObj) (c : Coords) : WireObj :=
  if c = w.gate1 ∨ c = w.gate2 then w
  else if are_points_neighbours c (secondLast w.coords_wire_segments) then
    { w with coords_wire_segments := insertBeforeLast w.coords_wire_segments c }
  else if are_points_neighbours c (w.coords_wire_segments.getD 1 default) then
    { w with coords_wire_segments := insertAfterFirst w.coords_wire_segments c }
  else w

/-- `Wire.append_wire_segment_list`. -/
def append_wire_segment_list (w : WireObj) (cs : List Coords) : WireObj :=
  cs.foldl append_wire_segment w

/-- `Wire.reset`: restore the segment list to the two gates (guarded by
`len >= 2` in the source). -/
def reset (w : WireObj) : WireObj :=
  if 2 ≤ w.coords_wire_segments.length then
    { w with coords_wire_segments := [w.gate1, w.gate2] }
  else w

end WireObj

/-- An occupant of a lattice cell: the `"GATE"` sentinel or a wire handle
(arena index standing for the Python object identity). -/
inductive Occupant where
  | gate : Occupant
  | wire : ℕ → Occupant
  deriving DecidableEq, Repr

/-- The `Occupancy` class of `src/classes/occupancy.py`.  `keys` tracks the
key set of the `occupancy` defaultdict (cells that were ever written);
both maps read as empty outside it. -/
structure Occupancy where
  keys : Finset Coords
  occupancy : Coords → Finset Occupant
  occupancy_without_gates : Coords → Finset ℕ

namespace Occupancy

/-- `Occupancy.__init__`: both maps empty. -/
def empty : Occupancy :=
  { keys := ∅, occupancy := fun _ => ∅, occupancy_without_gates := fun _ => ∅ }

/-- Pointwise update helper for the coordinate-indexed maps. -/
def updateFun {β : Type} [DecidableEq Coords] (f : Coords → β) (c : Coords) (v : β) :
    Coords → β :=
  fun c' => if c' = c then v else f c'

/-- `Occupancy.remove_from_occupancy`: no-op on an absent or empty cell and
on gate cells; otherwise remove the wire from both maps.  (On a non-gate
cell the source's `set.remove` presupposes the wire is present; `erase`
agrees there.) -/
def remove_from_occupancy (o : Occupancy) (c : Coords) (w : ℕ) : Occupancy :=
  if o.occupancy c = ∅ then o
  else if Occupant.gate ∈ o.occupancy c then o
  else
    { o with
      occupancy := updateFun o.occupancy c ((o.occupancy c).erase (Occupant.wire w)),
      occupancy_without_gates :=
        updateFun o.occupancy_without_gates c ((o.occupancy_without_gates c).erase w) }

/-- `Occupancy.remove_wire_from_occupancy`: fold over the wire's segments. -/
def remove_wire_from_occupancy (o : Occupancy) (segments : List Coords) (w : ℕ) : Occupancy :=
  segments.foldl (fun acc c => acc.remove_from_occupancy c w) o

/-- `Occupancy.add_wire_segment`: insert the wire into both maps. -/
def add_wire_segment (o : Occupancy) (c : Coords) (w : ℕ) : Occupancy :=
  { keys := insert c o.keys,
    occupancy := updateFun o.occupancy c (insert (Occupant.wire w) (o.occupancy c)),
    occupancy_without_gates :=
      updateFun o.occupancy_without_gates c (insert w (o.occupancy_without_gates c)) }

/-- `Occupancy.add_wire`: fold `add_wire_segment` over a segment list. -/
def add_wire (o : Occupancy) (segments : List Coords) (w : ℕ) : Occupancy :=
  segments.foldl (fun acc c => acc.add_wire_segment c w) o

/-- `Occupancy.add_gate`. -/
def add_gate (o : Occupancy) (c : Coords) : Occupancy :=
  { o with
    keys := insert c o.keys,
    occupancy := updateFun o.occupancy c (insert Occupant.gate (o.occupancy c)) }

/-- `Occupancy.add_gates`. -/
def add_gates (o : Occupancy) (cs : List Coords) : Occupancy :=
  cs.foldl add_gate o

end Occupancy

/-- The `Chip` aggregate of `src/classes/chip.py` restricted to the routing
core (CSV loading and plotting are external collaborators).  `arena` is the
append-only store of every `Wire` object ever created; `wires` holds the
arena index of each current wire, in netlist order. -/
structure ChipState where
  gates : List (ℕ × Coords)
  gateCoords : Finset Coords
  netlist : List (ℕ × ℕ)
  arena : List WireObj
  wires : List ℕ
  occupancy : Occupancy
  gridRangeX : ℤ × ℤ
  gridRangeY : ℤ × ℤ
  gridRangeZ : ℤ × ℤ

namespace ChipState

/-- Dereference a wire handle (arena index). -/
def wireAt (s : ChipState) (i : ℕ) : WireObj :=
  s.arena.getD i default

/-- Overwrite the arena entry of a wire handle (mutating the object all
handles to it see, as in Python). -/
def setWire (s : ChipState) (i : ℕ) (w : WireObj) : ChipState :=
  { s with arena := s.arena.set i w }

/-- `Chip.coord_within_boundaries`: inclusive range check on all axes. -/
def coord_within_boundaries (s : ChipState) (c : Coords) : Bool :=
  decide (s.gridRangeX.1 ≤ c.1 ∧ c.1 ≤ s.gridRangeX.2 ∧
    s.gridRangeY.1 ≤ c.2.1 ∧ c.2.1 ≤ s.gridRangeY.2 ∧
    s.gridRangeZ.1 ≤ c.2.2 ∧ c.2.2 ≤ s.gridRangeZ.2)

/-- `Chip.all_offset_combos`, in source order. -/
def allOffsetCombos : List Coords :=
  [(1, 0, 0), (-1, 0, 0), (0, 1, 0), (0, -1, 0), (0, 0, 1), (0, 0, -1)]

/-- `Chip.get_neighbours`: offset the coordinate by each combo and keep the
in-bounds results, preserving order. -/
def get_neighbours (s : ChipState) (c : Coords) : List Coords :=
  (allOffsetCombos.map fun o => (c.1 + o.1, c.2.1 + o.2.1, c.2.2 + o.2.2)).filter
    fun n => s.coord_within_boundaries n

/-- `Chip.get_coord_occupancy` with `exclude_gates=False`. -/
def get_coord_occupancy (s : ChipState) (c : Coords) : Finset Occupant :=
  s.occupancy.occupancy c

/-- `Chip.get_coord_occupancy` with `exclude_gates=True` (reads the
`occupancy_without_gates` map). -/
def get_coord_occupancy_no_gates (s : ChipState) (c : Coords) : Finset ℕ :=
  s.occupancy.occupancy_without_gates c

/-- `Chip.get_intersection_coords`: keys of the occupancy dict holding no
gate and more than one occupant. -/
def get_intersection_coords (s : ChipState) : Finset Coords :=
  s.occupancy.keys.filter fun c =>
    Occupant.gate ∉ s.occupancy.occupancy c ∧ 1 < (s.occupancy.occupancy c).card

/-- `Chip.get_wire_intersect_amount`: each intersection cell contributes 2
when it holds more than two occupants and 1 otherwise. -/
def get_wire_intersect_amount (s : ChipState) : ℕ :=
  ∑ c ∈ s.get_intersection_coords,
    (if 2 < (s.occupancy.occupancy c).card then 2 else 1)

end ChipState

/-- Orient an edge so the smaller endpoint (Python tuple `<`) comes first,
as in the set comprehensions of `Chip.wires_in_collision`. -/
def canonEdge (p : Coords × Coords) : Coords × Coords :=
  if coordsLt p.1 p.2 then p else (p.2, p.1)

/-- The edge set `Chip.wires_in_collision` builds for one wire.  The source
iterates `range(wire.length - 1)` with `length = len(segments) - 1`, so the
final consecutive pair of the segment list is not included. -/
def wireCollisionEdgeSet (w : WireObj) : Finset (Coords × Coords) :=
  (((WireObj.consecutivePairs w.coords_wire_segments).take
    (w.coords_wire_segments.length - 2)).map canonEdge).toFinset

/-- `Chip.wires_in_collision`: the two oriented edge sets are not disjoint. -/
def wires_in_collision (w1 w2 : WireObj) : Bool :=
  ¬ Disjoint (wireCollisionEdgeSet w1) (wireCollisionEdgeSet w2)

/-- Unordered pairs of distinct positions of a list, in the order
`itertools.combinations(l, r=2)` produces them. -/
def combos2 {α : Type} : List α → List (α × α)
  | [] => []
  | x :: xs => (xs.map fun y => (x, y)) ++ combos2 xs

namespace ChipState

/-- The wire handles among the occupants of a cell, as a `Finset`. -/
def wireIndexSetAt (s : ChipState) (c : Coords) : Finset ℕ :=
  ((s.get_coord_occupancy c).filter fun o => o ≠ Occupant.gate).image fun o =>
    match o with
    | Occupant.gate => 0
    | Occupant.wire i => i

/-- The wire handles among the occupants of a cell as a duplicate-free
list (Python iterates `tuple(set)` in an unspecified order; every use is
order-insensitive, so the ascending enumeration — wire handles are arena
indices, all below `arena.length` — is a faithful choice). -/
def wireIndicesAt (s : ChipState) (c : Coords) : List ℕ :=
  (List.range s.arena.length).filter fun i => i ∈ s.wireIndexSetAt c

/-- `Chip.wire_segment_causes_collision`: a shared wire of the two cells has
`{current, neighbour}` as a consecutive segment pair.  (This scan uses
`range(len(segments) - 1)`, i.e. all consecutive pairs.) -/
def wire_segment_causes_collision (s : ChipState) (neighbour current : Coords) : Bool :=
  let neighbourOcc := s.get_coord_occupancy_no_gates neighbour
  let currentOcc := s.get_coord_occupancy_no_gates current
  if neighbourOcc = ∅ ∨ currentOcc = ∅ then false
  else
    ((List.range s.arena.length).filter fun i => i ∈ neighbourOcc ∩ currentOcc).any fun i =>
      (WireObj.consecutivePairs (s.wireAt i).coords_wire_segments).any fun p =>
        (p.1 == current && p.2 == neighbour) || (p.1 == neighbour && p.2 == current)

/-- `Chip.get_grid_wire_collision` with `boolean_output=True`: some pair of
distinct occupants of some intersection cell is in collision (the source's
early return makes the traversal order irrelevant for the boolean). -/
def get_grid_wire_collision (s : ChipState) : Bool :=
  decide (∃ c ∈ s.get_intersection_coords,
    ((combos2 (s.wireIndicesAt c)).any fun p =>
      wires_in_collision (s.wireAt p.1) (s.wireAt p.2)) = true)

/-- `Chip.get_grid_wire_collision` with `boolean_output=False`: count the
colliding pairs per intersection cell (a pair sharing several intersection
cells is counted once per cell). -/
def get_grid_wire_collision_count (s : ChipState) : ℕ :=
  ∑ c ∈ s.get_intersection_coords,
    ((combos2 (s.wireIndicesAt c)).countP fun p =>
      wires_in_collision (s.wireAt p.1) (s.wireAt p.2))

/-- Total wire length, the `sum(wire.length for wire in self.wires)` of
`Chip.calc_total_grid_cost`. -/
def totalWireLength (s : ChipState) : ℤ :=
  (s.wires.map fun i => (s.wireAt i).length).sum

/-- `Chip.calc_total_grid_cost`.  On the `ignore_collision_cost=True`
branch the local `collision_amount` is never assigned, yet it is passed to
`cost_function`, so the Python call raises `UnboundLocalError`; `none`
models that.  On the default branch `collision_amount` is the *boolean*
`get_grid_wire_collision()` (default `boolean_output=True`), which Python
coerces to 0 or 1 inside `cost_function`. -/
def calc_total_grid_cost (s : ChipState) (ignore_collision_cost : Bool) : Option ℤ :=
  let tot_wire_length := s.totalWireLength
  let intersection_amount : ℤ := s.get_wire_intersect_amount
  let collision_amount : Option ℤ :=
    if ¬ignore_collision_cost then some (if s.get_grid_wire_collision then 1 else 0)
    else none
  collision_amount.map fun ca => cost_function tot_wire_length intersection_amount ca

/-- `chip.calc_total_grid_cost()` as the algorithms call it (default
`ignore_collision_cost=False`), which always returns a value. -/
def totalCost (s : ChipState) : ℤ :=
  cost_function s.totalWireLength s.get_wire_intersect_amount
    (if s.get_grid_wire_collision then 1 else 0)

/-- `Chip.add_wire_segment_to_occupancy`. -/
def add_wire_segment_to_occupancy (s : ChipState) (c : Coords) (i : ℕ) : ChipState :=
  { s with occupancy := s.occupancy.add_wire_segment c i }

/-- `Chip.add_wire_segment_list_to_occupancy`. -/
def add_wire_segment_list_to_occupancy (s : ChipState) (cs : List Coords) (i : ℕ) :
    ChipState :=
  { s with occupancy := s.occupancy.add_wire cs i }

/-- `Chip.remove_wire_from_occupancy`. -/
def remove_wire_from_occupancy (s : ChipState) (i : ℕ) : ChipState :=
  { s with occupancy :=
      s.occupancy.remove_wire_from_occupancy (s.wireAt i).coords_wire_segments i }

/-- `Chip.reset_wire`: purge the wire from occupancy, then reset the wire
object. -/
def reset_wire (s : ChipState) (i : ℕ) : ChipState :=
  let s' := s.remove_wire_from_occupancy i
  s'.setWire i (s'.wireAt i).reset

/-- `Chip.reset_wires`. -/
def reset_wires (s : ChipState) (is' : List ℕ) : ChipState :=
  is'.foldl reset_wire s

/-- `Chip.reset_all_wires`. -/
def reset_all_wires (s : ChipState) : ChipState :=
  s.reset_wires s.wires

/-- `Chip.is_fully_connected`. -/
def is_fully_connected (s : ChipState) : Bool :=
  s.wires.all fun i => (s.wireAt i).is_wire_connected

/-- `Chip.wire_segment_list` (the ordered list of every wire's segments). -/
def wire_segment_list (s : ChipState) : List (List Coords) :=
  s.wires.map fun i => (s.wireAt i).coords_wire_segments

/-- `Chip.add_entire_wire`: build a fresh `Wire` carrying the full path,
replace the first current wire with the same unordered endpoint pair, and
register the interior cells in occupancy under the *new* object.  (The old
object's occupancy entries are not purged, and the new object's endpoints
are not registered.) -/
def add_entire_wire (s : ChipState) (wireSegmentList : List Coords) : ChipState :=
  let gate_1_coords := wireSegmentList.headD default
  let gate_2_coords := wireSegmentList.getLastD default
  let interior := (wireSegmentList.drop 1).dropLast
  let w := (WireObj.make gate_1_coords gate_2_coords).append_wire_segment_list interior
  match s.wires.findIdx? (fun i =>
      let ex := (s.wireAt i).coords_wire_segments
      ({ex.headD default, ex.getLastD default} : Finset Coords) =
        {gate_1_coords, gate_2_coords}) with
  | none => s
  | some pos =>
      let newIdx := s.arena.length
      { s with
        arena := s.arena ++ [w],
        wires := s.wires.set pos newIdx,
        occupancy := s.occupancy.add_wire interior newIdx }

/-- `Chip.add_entire_wires`. -/
def add_entire_wires (s : ChipState) (lists : List (List Coords)) : ChipState :=
  lists.foldl add_entire_wire s

end ChipState

/-- Stable insertion of an element into a list: it goes after every
element the comparison puts at or below it. -/
def stableInsert {α : Type} (le : α → α → Bool) (x : α) : List α → List α
  | [] => [x]
  | y :: ys => if le y x then y :: stableInsert le x ys else x :: y :: ys

/-- Python's stable `sorted` by a boolean `<=` comparison.  A stable
ascending sort is uniquely determined by the key, so this structural
insertion sort produces exactly the list `sorted(...)` produces. -/
def pySorted {α : Type} (le : α → α → Bool) (l : List α) : List α :=
  l.foldl (fun acc x => stableInsert le x acc) []

/-- Largest first component among the gate coordinates (`max(...)` over a
non-empty sequence in `Chip.set_grid_size`). -/
def listMaxD (l : List ℤ) : ℤ :=
  l.foldl max (l.headD 0)

/-- Gate lookup `self.gates[gate_id]`; on duplicate ids the Python dict
comprehension keeps the last occurrence. -/
def lookupGate (gates : List (ℕ × Coords)) (gid : ℕ) : Coords :=
  ((gates.reverse.find? fun g => g.1 == gid).map Prod.snd).getD default

/-- `Chip.__init__` restricted to the routing core: gate coordinates get a
`z = 0` component, the grid is sized from the padding, gates are registered
in occupancy as the `GATE` sentinel, the netlist is stably sorted by
ascending Manhattan distance, and one fresh `Wire` per netlist entry is
created (its gate cells are *not* registered in occupancy here; the
sequencers do that in `run`). -/
def mkChip (gatesInput : List (ℕ × ℤ × ℤ)) (netlistInput : List (ℕ × ℕ))
    (padding : ℤ) : ChipState :=
  let gates : List (ℕ × Coords) := gatesInput.map fun g => (g.1, (g.2.1, g.2.2, 0))
  let gateCoordsList := gates.map Prod.snd
  let netlist := pySorted (fun a b =>
    manhattan_distance (lookupGate gates a.1) (lookupGate gates a.2) ≤
      manhattan_distance (lookupGate gates b.1) (lookupGate gates b.2)) netlistInput
  let arena := netlist.map fun conn =>
    WireObj.make (lookupGate gates conn.1) (lookupGate gates conn.2)
  { gates := gates,
    gateCoords := gateCoordsList.toFinset,
    netlist := netlist,
    arena := arena,
    wires := List.range arena.length,
    occupancy := Occupancy.empty.add_gates gateCoordsList,
    gridRangeX := (-padding + 1, listMaxD (gateCoordsList.map fun c => c.1) + padding),
    gridRangeY := (-padding + 1, listMaxD (gateCoordsList.map fun c => c.2.1) + padding),
    gridRangeZ := (0, 7) }

/-!  Path search primitives.  Queues are lists with `popleft = head` and
`append = ++ [·]`, matching `collections.deque`.  The fuel argument bounds
the number of loop iterations; `none` means the fuel ran out before the
Python `while` loop finished, `some r` is the loop's result. -/

/-- The interior `path[1:-1] if len(path) > 2 else []` that every search
returns on success. -/
def pathInterior (path : List Coords) : List Coords :=
  if 2 < path.length then (path.drop 1).dropLast else []

/-- One neighbour-expansion step of `Greed.bfs_route` (the loop body over
`chip.get_neighbours(current)`): prune visited cells, colliding edges,
foreign gates and — without `allow_short_circuit` — occupied cells;
otherwise append to the queue and mark visited.  Check order as in the
source. -/
def bfsExpand (s : ChipState) (end_ : Coords) (allow_short_circuit : Bool)
    (current : Coords) (path : List Coords)
    (acc : List (Coords × List Coords) × Finset Coords) (n : Coords) :
    List (Coords × List Coords) × Finset Coords :=
  let (queue, visited) := acc
  if n ∈ visited then acc
  else
    let occupant_set := s.get_coord_occupancy n
    if s.wire_segment_causes_collision n current then acc
    else if Occupant.gate ∈ occupant_set ∧ n ≠ end_ then acc
    else if ¬allow_short_circuit ∧ occupant_set ≠ ∅ ∧ Occupant.gate ∉ occupant_set then acc
    else (queue ++ [(n, path ++ [n])], insert n visited)

/-- The `while queue` loop of `Greed.bfs_route`. -/
def bfsRouteLoop (s : ChipState) (end_ : Coords) (limit : ℕ)
    (allow_short_circuit : Bool) :
    ℕ → List (Coords × List Coords) → Finset Coords → Option (Option (List Coords))
  | 0, _, _ => none
  | _ + 1, [], _ => some none
  | fuel + 1, (current, path) :: rest, visited =>
    if current = end_ then some (some (pathInterior path))
    else if limit < path.length then bfsRouteLoop s end_ limit allow_short_circuit fuel rest visited
    else
      let st := (s.get_neighbours current).foldl
        (bfsExpand s end_ allow_short_circuit current path) (rest, visited)
      bfsRouteLoop s end_ limit allow_short_circuit fuel st.1 st.2

/-- `Greed.bfs_route` (`src/algorithms/greed.py` lines 172-236;
`Greed_random.bfs_route` is the same computation with the neighbour list
hoisted into a variable, so this definition also embeds the override that
`Pseudo_random` and `IRRA_PR` inherit).  Pruning limit is
`manhattan_distance + offset` on the *cell count* of a path. -/
def bfs_route (s : ChipState) (start end_ : Coords) (offset : ℕ)
    (allow_short_circuit : Bool) (fuel : ℕ) : Option (Option (List Coords)) :=
  bfsRouteLoop s end_ (manhattan_distance start end_ + offset) allow_short_circuit fuel
    [(start, [start])] {start}

/-- One neighbour-expansion step of `Pseudo_random.bfs_route_exact_length`:
prune cells already on the current path, foreign gates and colliding
edges; the visited set is keyed on `(cell, distance)` pairs.  Check order
as in the source. -/
def bfsExactExpand (s : ChipState) (end_ : Coords)
    (current : Coords) (path : List Coords)
    (acc : List (Coords × List Coords) × Finset (Coords × ℕ)) (n : Coords) :
    List (Coords × List Coords) × Finset (Coords × ℕ) :=
  let (queue, visited) := acc
  if n ∈ path then acc
  else
    let occupant_set := s.get_coord_occupancy n
    if Occupant.gate ∈ occupant_set ∧ n ≠ end_ then acc
    else if s.wire_segment_causes_collision n current then acc
    else
      let newDist := path.length + 1
      if (n, newDist) ∉ visited then
        (queue ++ [(n, path ++ [n])], insert (n, newDist) visited)
      else acc

/-- The `while queue` loop of `Pseudo_random.bfs_route_exact_length`.
`dist = len(path)` counts *cells*; success requires `current == end` and
`dist == exact_length`. -/
def bfsExactLoop (s : ChipState) (end_ : Coords) (exact_length : ℕ) :
    ℕ → List (Coords × List Coords) → Finset (Coords × ℕ) → Option (Option (List Coords))
  | 0, _, _ => none
  | _ + 1, [], _ => some none
  | fuel + 1, (current, path) :: rest, visited =>
    if current = end_ ∧ path.length = exact_length then some (some (pathInterior path))
    else if exact_length < path.length then bfsExactLoop s end_ exact_length fuel rest visited
    else
      let st := (s.get_neighbours current).foldl
        (bfsExactExpand s end_ current path) (rest, visited)
      bfsExactLoop s end_ exact_length fuel st.1 st.2

/-- `Pseudo_random.bfs_route_exact_length` (`src/algorithms/random_algo.py`
lines 66-122; the `random.shuffle(neighbours)` line is commented out in
the source, so the search is deterministic). -/
def bfs_route_exact_length (s : ChipState) (start end_ : Coords) (exact_length : ℕ)
    (fuel : ℕ) : Option (Option (List Coords)) :=
  bfsExactLoop s end_ exact_length fuel [(start, [start])] ∅

/-!  `A_star.shortest_cable` and the `heapq` frontier it uses.  A frontier
entry is the Python tuple `(cost, coords, path)`; `heapq` compares entries
with `<`, which on these tuples is the lexicographic order below. -/

/-- A frontier entry `(cost, current_coords, path)` of
`A_star.shortest_cable`. -/
abbrev AStarEntry : Type := ℤ × Coords × List Coords

/-- Python `<` on lists of coordinate tuples (lexicographic, shorter
prefix first). -/
def coordListLt : List Coords → List Coords → Bool
  | [], [] => false
  | [], _ :: _ => true
  | _ :: _, [] => false
  | a :: as', b :: bs' => coordsLt a b || (a == b && coordListLt as' bs')

/-- Python `<` on frontier entries: compare cost, then coordinate, then
path. -/
def entryLt (a b : AStarEntry) : Bool :=
  a.1 < b.1 || (a.1 == b.1 &&
    (coordsLt a.2.1 b.2.1 || (a.2.1 == b.2.1 && coordListLt a.2.2 b.2.2)))

instance : Inhabited AStarEntry := ⟨(0, (0, 0, 0), [])⟩

/-- CPython `heapq._siftdown(heap, startpos, pos)` with `newitem` the value
read from `heap[pos]` before the loop: move parents down while `newitem`
is smaller, then store `newitem`.  `fuel` bounds the strictly decreasing
`pos`, so `pos + 1` steps always suffice. -/
def siftdownLoop (startpos : ℕ) : ℕ → Array AStarEntry → AStarEntry → ℕ → Array AStarEntry
  | 0, a, newitem, pos => a.setD pos newitem
  | fuel + 1, a, newitem, pos =>
    if startpos < pos then
      let parentpos := (pos - 1) / 2
      let parent := a.getD parentpos default
      if entryLt newitem parent then
        siftdownLoop startpos fuel (a.setD pos parent) newitem parentpos
      else a.setD pos newitem
    else a.setD pos newitem

/-- CPython `heapq._siftup(heap, pos)` (with `startpos = pos = 0` as the
only call site, `heappop`, uses it): bubble the smaller child up to the
root's hole until a leaf, then sift the moved last element down.  `fuel`
bounds the strictly increasing child position. -/
def siftupLoop (endpos : ℕ) : ℕ → Array AStarEntry → AStarEntry → ℕ → Array AStarEntry
  | 0, a, newitem, pos => siftdownLoop 0 (pos + 1) a newitem pos
  | fuel + 1, a, newitem, pos =>
    let childpos := 2 * pos + 1
    if childpos < endpos then
      let rightpos := childpos + 1
      let childpos' :=
        if rightpos < endpos ∧
            ¬ entryLt (a.getD childpos default) (a.getD rightpos default) then rightpos
        else childpos
      siftupLoop endpos fuel (a.setD pos (a.getD childpos' default)) newitem childpos'
    else siftdownLoop 0 (pos + 1) a newitem pos

/-- `heapq.heappush`. -/
def heappush (a : Array AStarEntry) (item : AStarEntry) : Array AStarEntry :=
  siftdownLoop 0 (a.size + 1) (a.push item) item a.size

/-- `heapq.heappop`: `none` models the `IndexError` on an empty heap
(`shortest_cable` never pops an empty frontier). -/
def heappop (a : Array AStarEntry) : Option (AStarEntry × Array AStarEntry) :=
  if a.size = 0 then none
  else
    let lastelt := a.getD (a.size - 1) default
    let a1 := a.pop
    if a1.size = 0 then some (lastelt, a1)
    else
      let returnitem := a1.getD 0 default
      some (returnitem, siftupLoop a1.size (a1.size + 1) (a1.setD 0 lastelt) lastelt 0)

/-- `A_star.get_existing_path_cost`: edge count so far. -/
def get_existing_path_cost (path : List Coords) : ℤ :=
  (path.length : ℤ) - 1

/-- `A_star.get_extra_wire_cost`: 0 at a gate; otherwise the intersection
penalty when the last cell already carries another wire, plus the
collision penalty when the last edge collides. -/
def get_extra_wire_cost (s : ChipState) (path : List Coords) : ℤ :=
  let lastc := path.getLastD default
  if lastc ∈ s.gateCoords then 0
  else
    let parent := WireObj.secondLast path
    let current_occupancy_set := s.get_coord_occupancy_no_gates lastc
    if current_occupancy_set ≠ ∅ then
      INTERSECTION_COST +
        (if s.wire_segment_causes_collision parent lastc then COLLISION_COST else 0)
    else 0

/-- `A_star.heuristic_function`: Manhattan distance to the goal plus the
existing path cost plus the extra penalty. -/
def heuristic_function (s : ChipState) (path : List Coords) (goal : Coords) : ℤ :=
  (manhattan_distance (path.getLastD default) goal : ℤ) +
    get_existing_path_cost path + get_extra_wire_cost s path

/-- One neighbour-expansion step of `A_star.shortest_cable`: prune visited
cells, cells on the current path, colliding edges, foreign gates and —
without `allow_short_circuit` — occupied cells; otherwise push
`(heuristic, neighbour, path + [neighbour])` and mark visited. -/
def aStarExpand (s : ChipState) (end_ : Coords) (allow_short_circuit : Bool)
    (current : Coords) (path : List Coords)
    (acc : Array AStarEntry × Finset Coords) (n : Coords) :
    Array AStarEntry × Finset Coords :=
  let (frontier, visited) := acc
  if n ∈ visited then acc
  else if n ∈ path then acc
  else
    let occupant_set := s.get_coord_occupancy n
    if s.wire_segment_causes_collision n current then acc
    else if Occupant.gate ∈ occupant_set ∧ n ≠ end_ then acc
    else if ¬allow_short_circuit ∧ occupant_set ≠ ∅ ∧ Occupant.gate ∉ occupant_set then acc
    else
      let neighbour_path := path ++ [n]
      let neighbour_cost := heuristic_function s neighbour_path end_
      (heappush frontier (neighbour_cost, n, neighbour_path), insert n visited)

/-- The `while self.frontier` loop of `A_star.shortest_cable`, returning
both the sequence of popped entries (a ghost trace) and the result. -/
def aStarLoop (s : ChipState) (end_ : Coords) (allow_short_circuit : Bool) :
    ℕ → Array AStarEntry → Finset Coords →
      List AStarEntry × Option (Option (List Coords))
  | 0, _, _ => ([], none)
  | fuel + 1, frontier, visited =>
    match heappop frontier with
    | none => ([], some none)
    | some (e, frontier') =>
      if e.2.1 = end_ then ([e], some (some (pathInterior e.2.2)))
      else
        let st := (s.get_neighbours e.2.1).foldl
          (aStarExpand s end_ allow_short_circuit e.2.1 e.2.2) (frontier', visited)
        let rec' := aStarLoop s end_ allow_short_circuit fuel st.1 st.2
        (e :: rec'.1, rec'.2)

/-- `A_star.shortest_cable` (`src/algorithms/A_star.py` lines 142-207). -/
def shortest_cable (s : ChipState) (start_coords end_coords : Coords)
    (allow_short_circuit : Bool) (fuel : ℕ) : Option (Option (List Coords)) :=
  let path := [start_coords]
  let start_cost := heuristic_function s path end_coords
  (aStarLoop s end_coords allow_short_circuit fuel
    (heappush #[] (start_cost, start_coords, path)) {start_coords}).2

/-!  Randomness.  All randomness in the source flows through Python's
global `random` module, seeded once by `Greed_random.__init__`.  The
embedding carries the generator state explicitly: `rngNext` is a concrete
deterministic generator standing for the seeded Mersenne Twister, and
`pyShuffle` is the Fisher-Yates loop of `random.shuffle`.  The claims
touching randomness depend only on the generator being a deterministic
function of its state. -/

/-- One step of the modelled pseudo-random generator (a 32-bit linear
congruential generator standing for Python's seeded Mersenne Twister). -/
def rngNext (s : ℕ) : ℕ :=
  (1103515245 * s + 12345) % 4294967296

/-- Draw a value in `[0, n)` (`random._randbelow`), returning the new
generator state. -/
def randBelow (s n : ℕ) : ℕ × ℕ :=
  let s' := rngNext s
  (s' % n, s')

/-- The Fisher-Yates loop of `random.shuffle`: for `i` from `len - 1` down
to 1, draw `j < i + 1` and swap positions `i` and `j`. -/
def pyShuffleLoop {α : Type} [Inhabited α] : ℕ → Array α → ℕ → Array α × ℕ
  | 0, a, r => (a, r)
  | i + 1, a, r =>
    let (j, r') := randBelow r (i + 2)
    let x := a.getD (i + 1) default
    let y := a.getD j default
    pyShuffleLoop i ((a.setD (i + 1) y).setD j x) r'

/-- `random.shuffle` on a list, threading the generator state. -/
def pyShuffle {α : Type} [Inhabited α] (l : List α) (rng : ℕ) : List α × ℕ :=
  let (a, r) := pyShuffleLoop (l.length - 1) l.toArray rng
  (a.toList, r)

/-- `list(range(start, stop, 2))`. -/
def rangeStep2 (start stop : ℕ) : List ℕ :=
  (List.range ((stop - start + 1) / 2)).map fun k => start + 2 * k

/-- The candidate-length loop of `Pseudo_random.run`: try
`bfs_route_exact_length` for each length in order and commit the first
success by registering each interior coordinate in occupancy and appending
it to the wire. -/
def tryLengthCandidates (i : ℕ) (start end_ : Coords) (fuel : ℕ) :
    ChipState → List ℕ → ChipState
  | s, [] => s
  | s, l :: rest =>
    match bfs_route_exact_length s start end_ l fuel with
    | some (some path) =>
      path.foldl (fun acc c =>
        (acc.add_wire_segment_to_occupancy c i).setWire i
          ((acc.wireAt i).append_wire_segment c)) s
    | _ => tryLengthCandidates i start end_ fuel s rest

/-- `Pseudo_random.run` (`src/algorithms/random_algo.py` lines 16-63):
shuffle the wire order (`Greed_random.get_wire_order`), then for each
still-unconnected wire register its gates in occupancy, reset its
segments, and try shuffled parity-matched candidate lengths
`min_length - 1, min_length + 1, …, max_length` with the exact-length
BFS. -/
def pseudo_random_run (s : ChipState) (max_offset : ℕ) (rng : ℕ) (fuel : ℕ) :
    ChipState × ℕ :=
  let (shuffled, rng1) := pyShuffle s.wires rng
  let s1 := { s with wires := shuffled }
  shuffled.foldl
    (fun (acc : ChipState × ℕ) i =>
      let (s, rng) := acc
      let w := s.wireAt i
      if w.is_wire_connected then (s, rng)
      else
        let start := w.gate1
        let end_ := w.gate2
        let s := (s.add_wire_segment_to_occupancy start i).add_wire_segment_to_occupancy
          end_ i
        let s := s.setWire i
          { s.wireAt i with coords_wire_segments := [start, end_] }
        let min_length := manhattan_distance start end_
        let max_length := max_offset + min_length
        let (length_candidates, rng) :=
          pyShuffle (rangeStep2 (min_length - 1) (max_length + 1)) rng
        (tryLengthCandidates i start end_ fuel s length_candidates, rng))
    (s1, rng1)

/-- `Greed_random.__init__` with `random_seed=seed`: seed the generator
(`random.seed(seed)` makes the modelled generator state the seed). -/
def greedRandomSeedState (seed : ℕ) : ℕ := seed

/-!  `IRRA_PR.reroute_wire` and its helpers (`src/algorithms/IRRA.py`).
The simulated-annealing acceptance test
`random.random() < acceptance_probability(new_cost, old_cost, temperature)`
computes with floats; it is abstracted as an oracle argument
`saAccept new_cost old_cost temperature rng : Bool × ℕ`, which the claims
(simulated annealing disabled) never consult. -/

/-- `IRRA_PR.add_new_path`: append the path to the wire and register it in
occupancy. -/
def add_new_path (s : ChipState) (i : ℕ) (new_path : List Coords) : ChipState :=
  (s.setWire i ((s.wireAt i).append_wire_segment_list new_path)).add_wire_segment_list_to_occupancy
    new_path i

/-- `IRRA_PR.restore_wire`: reset the wire, re-append the old coordinates
and re-register them in occupancy. -/
def restore_wire (s : ChipState) (i : ℕ) (old_coords : List Coords) : ChipState :=
  let s' := s.reset_wire i
  (s'.setWire i ((s'.wireAt i).append_wire_segment_list old_coords)).add_wire_segment_list_to_occupancy
    old_coords i

/-- Steps 1-2 of `IRRA_PR.reroute_wire`: remove the wire's old segments
from occupancy (gates excepted) and reset its coordinate list to the two
gates.  (Removal never touches the arena, so the wire's gates can be read
off the original state.) -/
def rerouteRemoveReset (s : ChipState) (i : ℕ) : ChipState :=
  let s1 := s.remove_wire_from_occupancy i
  s1.setWire i
    { s1.wireAt i with
      coords_wire_segments := [(s.wireAt i).gate1, (s.wireAt i).gate2] }

/-- `IRRA_PR.reroute_wire` (`src/algorithms/IRRA.py` lines 256-329).
Snapshot the wire, remove it from occupancy and reset it; with simulated
annealing at positive temperature first try a short-circuit-allowed BFS
under the acceptance oracle; then (or directly) try a
no-short-circuit BFS.  A non-empty path commits (`if new_path:` tests
Python truthiness, so an empty interior does not commit); otherwise the
old state is restored.  Returns `(committed, state, rng)`. -/
def reroute_wire (s : ChipState) (i : ℕ) (rerouting_offset : ℕ)
    (simulated_annealing : Bool) (temperature : ℚ)
    (saAccept : ℤ → ℤ → ℚ → ℕ → Bool × ℕ) (rng : ℕ) (fuel : ℕ) :
    Bool × ChipState × ℕ :=
  let old_coords := (s.wireAt i).coords_wire_segments
  let old_cost := s.totalCost
  let g1 := (s.wireAt i).gate1
  let g2 := (s.wireAt i).gate2
  let s2 := rerouteRemoveReset s i
  -- the simulated-annealing attempt; its outcome is either an immediate
  -- commit, or the `new_path` value and state the rest of the body sees
  let saStep : (Option (Bool × ChipState × ℕ)) × Option (List Coords) × ChipState × ℕ :=
    if simulated_annealing ∧ 0 < temperature then
      match bfs_route s2 g1 g2 rerouting_offset true fuel with
      | some (some p) =>
        if p ≠ [] then
          let s3 := add_new_path s2 i p
          let new_cost := s3.totalCost
          let (accepted, rng') := saAccept new_cost old_cost temperature rng
          if accepted ∧ new_cost ≠ old_cost ∧ s3.is_fully_connected then
            (some (true, s3, rng'), none, s3, rng')
          else
            let s4 := (s3.remove_wire_from_occupancy i).setWire i
              { s3.wireAt i with coords_wire_segments := [g1, g2] }
            (none, none, s4, rng')
        else (none, some p, s2, rng)
      | _ => (none, none, s2, rng)
    else (none, none, s2, rng)
  match saStep with
  | (some result, _, _, _) => result
  | (none, new_path0, s5, rng5) =>
    let new_path : Option (List Coords) :=
      match new_path0 with
      | none =>
        match bfs_route s5 g1 g2 rerouting_offset false fuel with
        | some r => r
        | none => none
      | some p => some p
    match new_path with
    | some p =>
      if p ≠ [] then (true, add_new_path s5 i p, rng5)
      else (false, restore_wire s5 i old_coords, rng5)
    | none => (false, restore_wire s5 i old_coords, rng5)

/-!  `A_star_optimize` (`src/algorithms/A_star.py` lines 209-463).  The
float-valued simulated-annealing helpers (`accept_new_config`,
`exponential_cooling`, `random.sample`) are abstracted as oracle
arguments; with `start_temperature = 0` the source never calls them. -/

/-- The mutable attributes of an `A_star_optimize` instance. -/
structure OptState where
  chip : ChipState
  current_cost : ℤ
  lowest_cost : ℤ
  previous_lowest_cost : ℤ
  best_wire_coords : List (List Coords)
  temperature : ℚ

/-- `A_star_optimize.__init__`. -/
def mkOptState (chip : ChipState) : OptState :=
  { chip := chip,
    current_cost := chip.totalCost,
    lowest_cost := chip.totalCost,
    previous_lowest_cost := chip.totalCost,
    best_wire_coords := chip.wire_segment_list,
    temperature := 0 }

/-- The rerouting loop of `optimize_n_wires_1_permutation` (step 2): run
`shortest_cable` for each wire in tuple order and commit its path; a
missing or empty path (`if not new_path:`) sets the revert flag and breaks. -/
def routeWires (fuel : ℕ) : ChipState → List ℕ → ChipState × Bool
  | c, [] => (c, false)
  | c, i :: rest =>
    let start := (c.wireAt i).gate1
    let end_ := (c.wireAt i).gate2
    match shortest_cable c start end_ true fuel with
    | some (some p) =>
      if p = [] then (c, true)
      else
        let c' := (c.setWire i ((c.wireAt i).append_wire_segment_list p)).add_wire_segment_list_to_occupancy
          p i
        routeWires fuel c' rest
    | _ => (c, true)

/-- The revert branch of `optimize_n_wires_1_permutation`: restore each
snapshot wire (reset, re-append the old coordinates, re-register them in
occupancy); the cost trackers are untouched. -/
def optRevertRestore (st : OptState) (chip2 : ChipState) (wires : List ℕ)
    (old_wire_coords : List (List Coords)) : OptState :=
  let chipR := (wires.zip old_wire_coords).foldl
    (fun c pr =>
      let c1 := c.reset_wire pr.1
      (c1.setWire pr.1 ((c1.wireAt pr.1).append_wire_segment_list pr.2)).add_wire_segment_list_to_occupancy
        pr.2 pr.1) chip2
  { st with chip := chipR }

/-- The keep branch of `optimize_n_wires_1_permutation`: adopt the rerouted
chip and `new_cost`; when the cost drops below `lowest_cost`, lower
`lowest_cost` and snapshot `best_wire_coords`. -/
def optAcceptKeep (st : OptState) (chip2 : ChipState) (new_cost : ℤ) : OptState :=
  { st with
    chip := chip2,
    current_cost := new_cost,
    lowest_cost := if new_cost < st.lowest_cost then new_cost else st.lowest_cost,
    best_wire_coords :=
      if new_cost < st.lowest_cost then chip2.wire_segment_list
      else st.best_wire_coords }

/-- `A_star_optimize.optimize_n_wires_1_permutation` (lines 327-415):
snapshot, rip out the tuple of wires, reroute them with A*, then decide
acceptance — at zero temperature revert when the intersection count grew,
then compare `new_cost` against `lowest_cost` (strictly or not according
to `switch_equal_configs`); at non-zero temperature consult the
simulated-annealing oracle.  On revert (or a disconnected result) restore
the snapshot; on acceptance update `current_cost` and, when the cost
dropped below `lowest_cost`, the best snapshot. -/
def optimize_n_wires_1_permutation (st : OptState) (wires : List ℕ)
    (iteration total_permutations : ℕ) (switch_equal_configs : Bool)
    (saAccept : ℤ → ℤ → ℚ → ℕ → Bool × ℕ) (cooling : ℕ → ℕ → ℚ)
    (rng fuel : ℕ) : OptState × ℕ :=
  let old_wire_coords := wires.map fun i => (st.chip.wireAt i).coords_wire_segments
  let old_intersection_num := st.chip.get_wire_intersect_amount
  let chip1 := st.chip.reset_wires wires
  let routed := routeWires fuel chip1 wires
  let chip2 := routed.1
  let revert0 := routed.2
  let revert1 : Bool :=
    if revert0 then true
    else if st.temperature = 0 then
      decide (old_intersection_num < chip2.get_wire_intersect_amount)
    else false
  let new_cost := if ¬revert1 then chip2.totalCost else st.lowest_cost
  let sa := saAccept new_cost st.current_cost st.temperature rng
  let revert2 : Bool :=
    if st.temperature ≠ 0 ∧ ¬revert1 then !sa.1
    else if ¬revert1 then
      (if switch_equal_configs then decide (st.lowest_cost < new_cost)
       else decide (st.lowest_cost ≤ new_cost))
    else true
  let rng' : ℕ := if st.temperature ≠ 0 ∧ ¬revert1 then sa.2 else rng
  let st' : OptState :=
    if revert2 ∨ ¬chip2.is_fully_connected then
      optRevertRestore st chip2 wires old_wire_coords
    else optAcceptKeep st chip2 new_cost
  let st'' :=
    if st'.temperature ≠ 0 then
      { st' with temperature := cooling iteration total_permutations }
    else st'
  (st'', rng')

/-- The ordered `r`-permutations of a list, in the order
`itertools.permutations` yields them. -/
def kperms {α : Type} : ℕ → List α → List (List α)
  | 0, _ => [[]]
  | r + 1, xs =>
    (List.range xs.length).flatMap fun idx =>
      match xs.get? idx with
      | none => []
      | some x => (kperms r (xs.eraseIdx idx)).map fun p => x :: p

/-- `A_star_optimize.optimize_n_wires_all_permutations`: run every ordered
tuple of distinct wires through `optimize_n_wires_1_permutation`, then
report whether `lowest_cost` moved (updating `previous_lowest_cost` when
it did). -/
def optimize_n_wires_all_permutations (st : OptState) (amount_of_wires : ℕ)
    (switch_equal_configs : Bool) (saAccept : ℤ → ℤ → ℚ → ℕ → Bool × ℕ)
    (cooling : ℕ → ℕ → ℚ) (rng fuel : ℕ) : OptState × Bool × ℕ :=
  let total_permutations := Nat.descFactorial st.chip.wires.length amount_of_wires
  let perms := kperms amount_of_wires st.chip.wires
  let final := perms.foldl
    (fun (acc : OptState × ℕ × ℕ) ws =>
      let (st0, r0, it) := acc
      let (st1, r1) := optimize_n_wires_1_permutation st0 ws it total_permutations
        switch_equal_configs saAccept cooling r0 fuel
      (st1, r1, it + 1)) (st, rng, 0)
  let st' := final.1
  if st'.lowest_cost = st'.previous_lowest_cost then (st', false, final.2.1)
  else ({ st' with previous_lowest_cost := st'.lowest_cost }, true, final.2.1)

/-- `A_star_optimize.optimize_n_wires_random_permutations`: as above but
with `amount_of_iterations` tuples drawn by the `random.sample` oracle. -/
def optimize_n_wires_random_permutations (st : OptState) (amount_of_wires : ℕ)
    (amount_of_iterations : ℕ) (switch_equal_configs : Bool)
    (saAccept : ℤ → ℤ → ℚ → ℕ → Bool × ℕ) (cooling : ℕ → ℕ → ℚ)
    (sample : ℕ → List ℕ → ℕ → List ℕ × ℕ) (rng fuel : ℕ) :
    OptState × Bool × ℕ :=
  let final := (List.range amount_of_iterations).foldl
    (fun (acc : OptState × ℕ) it =>
      let (st0, r0) := acc
      let (ws, r1) := sample amount_of_wires st0.chip.wires r0
      optimize_n_wires_1_permutation st0 ws it amount_of_iterations
        switch_equal_configs saAccept cooling r1 fuel) (st, rng)
  let st' := final.1
  if st'.lowest_cost = st'.previous_lowest_cost then (st', false, final.2)
  else ({ st' with previous_lowest_cost := st'.lowest_cost }, true, final.2)

/-- One of the two `while … and improved` cycle loops of
`A_star_optimize.optimize`: reset the temperature, run a cycle
(`switch_equal_configs` is true exactly on cycle 1) and repeat while the
cycle improved.  `cycleFuel` bounds the loop. -/
def optimizeWhileLoop (usesAllPermutations : Bool) (amount_of_wires : ℕ)
    (start_temperature : ℚ) (amount_of_random_iterations : ℕ)
    (saAccept : ℤ → ℤ → ℚ → ℕ → Bool × ℕ) (cooling : ℕ → ℕ → ℚ)
    (sample : ℕ → List ℕ → ℕ → List ℕ × ℕ) (fuel : ℕ) :
    ℕ → ℕ → OptState → ℕ → OptState × ℕ
  | 0, _, st, rng => (st, rng)
  | cycleFuel + 1, cycle, st, rng =>
    let st0 := { st with temperature := start_temperature }
    let (st1, improved, rng') :=
      if usesAllPermutations then
        optimize_n_wires_all_permutations st0 amount_of_wires (cycle = 1) saAccept
          cooling rng fuel
      else
        optimize_n_wires_random_permutations st0 amount_of_wires
          amount_of_random_iterations (cycle = 1) saAccept cooling sample rng fuel
    if improved then
      optimizeWhileLoop usesAllPermutations amount_of_wires start_temperature
        amount_of_random_iterations saAccept cooling sample fuel cycleFuel (cycle + 1)
        st1 rng'
    else (st1, rng')

/-- `A_star_optimize.optimize` (lines 225-273): for each tuple size
`i = 1 … reroute_n_wires`, cycle either the exhaustive or the sampled
permutation pass until `lowest_cost` stops improving, then restore the
best snapshot into the chip. -/
def optimize (st : OptState) (reroute_n_wires : ℕ) (start_temperature : ℚ)
    (total_permutations_limit amount_of_random_iterations : ℕ)
    (saAccept : ℤ → ℤ → ℚ → ℕ → Bool × ℕ) (cooling : ℕ → ℕ → ℚ)
    (sample : ℕ → List ℕ → ℕ → List ℕ × ℕ) (rng fuel cycleFuel : ℕ) :
    OptState × ℕ :=
  let final := (List.range' 1 reroute_n_wires).foldl
    (fun (acc : OptState × ℕ) i =>
      let (st0, r0) := acc
      let st1 := { st0 with temperature := start_temperature }
      let total_permutations := Nat.descFactorial st1.chip.wires.length i
      optimizeWhileLoop (total_permutations < total_permutations_limit) i
        start_temperature amount_of_random_iterations saAccept cooling sample fuel
        cycleFuel 1 st1 r0) (st, rng)
  let st' := final.1
  ({ st' with chip := st'.chip.reset_all_wires.add_entire_wires st'.best_wire_coords },
    final.2)

/-!  Specification-side definitions.  These follow the wording of the
claims (not the source) and exist only to be compared against the
source-derived definitions above. -/

/-- The claim's notion of a wire's edge set: *every* unordered consecutive
pair of the segment list (contrast `wireCollisionEdgeSet`, which the
source builds from `range(wire.length - 1)` and therefore stops one pair
early). -/
def specWireEdgeSet (w : WireObj) : Finset (Coords × Coords) :=
  ((WireObj.consecutivePairs w.coords_wire_segments).map canonEdge).toFinset

/-- The claim's collision count: the number of unordered pairs of distinct
wires whose edge-sets share at least one edge (1 per colliding pair). -/
def specCollisionPairCount (s : ChipState) : ℕ :=
  (combos2 s.wires).countP fun p =>
    decide (¬ Disjoint (specWireEdgeSet (s.wireAt p.1)) (specWireEdgeSet (s.wireAt p.2)))

/-- The claim's intersection count: the sum over all non-gate cells of
`max(0, |occ_wires[c]| - 1)` (truncated `ℕ` subtraction is that `max`);
cells never written stay empty, so the tracked key set carries the sum. -/
def specIntersectAmount (s : ChipState) : ℕ :=
  ∑ c ∈ s.occupancy.keys.filter (fun c => Occupant.gate ∉ s.occupancy.occupancy c),
    ((s.occupancy.occupancy_without_gates c).card - 1)

/-!  Concrete scenario states used by witnesses and counterexamples.  All
are built through the embedded `Chip` constructor and the commit pattern
of the sequencers (`Greed.run`: register the gate cells, then add each
found interior cell to occupancy and append it to the wire). -/

/-- The commit pattern shared by the sequencer `run` methods: register the
wire's gate cells, then fold the found interior cells into occupancy and
the wire object. -/
def commitFoundPath (s : ChipState) (i : ℕ) (interior : List Coords) : ChipState :=
  let w := s.wireAt i
  let s := (s.add_wire_segment_to_occupancy w.gate1 i).add_wire_segment_to_occupancy
    w.gate2 i
  interior.foldl (fun acc c =>
    (acc.add_wire_segment_to_occupancy c i).setWire i
      ((acc.wireAt i).append_wire_segment c)) s

/-- A 2-gate chip with one net: gates `(0,0,0)` and `(2,0,0)`. -/
def chipStraight : ChipState := mkChip [(1, 0, 0), (2, 2, 0)] [(1, 2)] 1

/-- `chipStraight` with its wire routed on the detour
`(0,0,0) → (0,1,0) → (1,1,0) → (2,1,0) → (2,0,0)` (length 4, no
intersections), so a shorter conflict-free route exists. -/
def chipDetour : ChipState := commitFoundPath chipStraight 0 [(0,1,0), (1,1,0), (2,1,0)]

/-- An 8-gate, 4-net chip whose sorted netlist order is
`(3,4), (7,8), (1,2), (5,6)`. -/
def chipCollide0 : ChipState := mkChip
  [(1, 0, 0), (2, 3, 0), (3, 1, 1), (4, 2, 1), (5, 0, 3), (6, 3, 3), (7, 1, 4), (8, 2, 4)]
  [(1, 2), (3, 4), (5, 6), (7, 8)] 1

/-- `chipCollide0` fully routed with two *disjoint* colliding wire pairs:
wires 0 and 2 share the edge `(1,0,0)-(2,0,0)`, wires 1 and 3 share the
edge `(1,3,0)-(2,3,0)`, and no other pair collides.  Total length 12,
4 intersection cells of two wires each. -/
def chipCollide : ChipState :=
  commitFoundPath (commitFoundPath (commitFoundPath (commitFoundPath chipCollide0
    0 [(1,0,0), (2,0,0)])
    1 [(1,3,0), (2,3,0)])
    2 [(1,0,0), (2,0,0)])
    3 [(1,3,0), (2,3,0)]

/-- An 8-gate, 4-net chip around the central cell `(2,2,0)`. -/
def chipCross0 : ChipState := mkChip
  [(1, 2, 0), (2, 2, 4), (3, 0, 2), (4, 4, 2), (5, 0, 0), (6, 4, 4), (7, 4, 0), (8, 0, 4)]
  [(1, 2), (3, 4), (5, 6), (7, 8)] 1

/-- `chipCross0` fully routed with all four wires passing through the cell
`(2,2,0)` (and a three-wire cell at `(3,2,0)`). -/
def chipCross : ChipState :=
  commitFoundPath (commitFoundPath (commitFoundPath (commitFoundPath chipCross0
    0 [(2,1,0), (2,2,0), (2,3,0)])
    1 [(1,2,0), (2,2,0), (3,2,0)])
    2 [(0,1,0), (1,1,0), (2,1,0), (2,2,0), (3,2,0), (3,3,0), (4,3,0)])
    3 [(3,0,0), (3,1,0), (3,2,0), (2,2,0), (1,2,0), (1,3,0), (1,4,0)]

/-- An acceptance oracle that always accepts (the claims with simulated
annealing disabled never consult it). -/
def alwaysAcceptOracle : ℤ → ℤ → ℚ → ℕ → Bool × ℕ :=
  fun _ _ _ rng => (true, rng)

/-!  Proof-support predicates: the queue-entry invariants of the two BFS
loops.  These are part of the verification apparatus, not of the source. -/

/-- Invariant of every `bfs_route` queue entry `(current, path)`: the path
is a non-empty duplicate-free 6-connected walk from `start` to `current`,
its cell count is within `limit + 1`, every cell after the first is either
gate-free or the goal, and every cell is already marked visited. -/
def BfsEntryInv (s : ChipState) (start end_ : Coords) (limit : ℕ)
    (visited : Finset Coords) (e : Coords × List Coords) : Prop :=
  e.2 ≠ [] ∧ e.2.head? = some start ∧ e.2.getLast? = some e.1 ∧ e.2.Nodup ∧
  List.Chain' (fun a b => are_points_neighbours a b = true) e.2 ∧
  e.2.length ≤ limit + 1 ∧
  (∀ x ∈ e.2.tail, Occupant.gate ∈ s.get_coord_occupancy x → x = end_) ∧
  (∀ x ∈ e.2, x ∈ visited)

/-- Invariant of every `bfs_route_exact_length` queue entry: the path is a
non-empty duplicate-free walk from `start` to `current`. -/
def BfsExactEntryInv (start : Coords) (e : Coords × List Coords) : Prop :=
  e.2 ≠ [] ∧ e.2.head? = some start ∧ e.2.getLast? = some e.1 ∧ e.2.Nodup

/-!  Theorems.  Each claim `Ck` of the specification gets one named
theorem (plus, where required, a witness and a counterexample). -/

/-- Claim C10: `calc_total_grid_cost(ignore_collision_cost=True)` never
returns a cost that ignores collisions: on that branch the local
`collision_amount` is referenced without ever being assigned, so the call
raises `UnboundLocalError` (modelled by `none`) for every chip state. -/
theorem C10_ignore_collision_cost_is_unbound_local (s : ChipState) :
    s.calc_total_grid_cost true = none := rfl

section CombosLemmas

variable {α : Type}

theorem combos2_exists_iff (f : α → α → Bool) (hsymm : ∀ a b, f a b = f b a)
    {l : List α} (hl : l.Nodup) :
    (∃ p ∈ combos2 l, f p.1 p.2 = true) ↔
      ∃ a ∈ l, ∃ b ∈ l, a ≠ b ∧ f a b = true := by
  induction l with
  | nil => simp [combos2]
  | cons x xs ih =>
    rcases List.nodup_cons.mp hl with ⟨hx, hxs⟩
    constructor
    · rintro ⟨p, hp, hf⟩
      rcases List.mem_append.mp hp with hp | hp
      · obtain ⟨y, hy, rfl⟩ := List.mem_map.mp hp
        exact ⟨x, List.mem_cons_self x xs, y, List.mem_cons_of_mem x hy,
          fun he => hx (he ▸ hy), hf⟩
      · obtain ⟨a, ha, b, hb, hab, hfab⟩ := (ih hxs).mp ⟨p, hp, hf⟩
        exact ⟨a, List.mem_cons_of_mem x ha, b, List.mem_cons_of_mem x hb, hab, hfab⟩
    · rintro ⟨a, ha, b, hb, hab, hf⟩
      rcases List.mem_cons.mp ha with hax | ha' <;>
        rcases List.mem_cons.mp hb with hbx | hb'
      · exact absurd (hax.trans hbx.symm) hab
      · subst hax
        exact ⟨(a, b), List.mem_append.mpr (Or.inl (List.mem_map.mpr ⟨b, hb', rfl⟩)), hf⟩
      · subst hbx
        exact ⟨(b, a), List.mem_append.mpr (Or.inl (List.mem_map.mpr ⟨a, ha', rfl⟩)),
          (hsymm a b ▸ hf)⟩
      · obtain ⟨p, hp, hfp⟩ := (ih hxs).mpr ⟨a, ha', b, hb', hab, hf⟩
        exact ⟨p, List.mem_append.mpr (Or.inr hp), hfp⟩

theorem combos2_any_iff (f : α → α → Bool) (hsymm : ∀ a b, f a b = f b a)
    {l : List α} (hl : l.Nodup) :
    ((combos2 l).any fun p => f p.1 p.2) = true ↔
      ∃ a ∈ l, ∃ b ∈ l, a ≠ b ∧ f a b = true := by
  rw [List.any_eq_true]
  exact combos2_exists_iff f hsymm hl

end CombosLemmas

theorem wires_in_collision_symm (w1 w2 : WireObj) :
    wires_in_collision w1 w2 = wires_in_collision w2 w1 := by
  simp [wires_in_collision, disjoint_comm]

theorem wireIndicesAt_nodup (s : ChipState) (c : Coords) :
    (s.wireIndicesAt c).Nodup :=
  (List.nodup_range _).filter _

theorem mem_wireIndicesAt {s : ChipState} {c : Coords} {i : ℕ} :
    i ∈ s.wireIndicesAt c ↔ i < s.arena.length ∧ i ∈ s.wireIndexSetAt c := by
  simp [ChipState.wireIndicesAt, List.mem_filter]

/-- Claim C1 (amended): `calc_total_grid_cost` returns the wire-length sum
plus 300 times the intersection count plus 1,000,000 times a *boolean*
collision flag — 1 when some two distinct wires sharing an intersection
cell are in collision, 0 otherwise — never a per-pair collision count
(the hypothesis says every wire handle stored in occupancy points into
the wire arena, as every state built through the chip API satisfies). -/
theorem C1_total_cost_uses_boolean_collision_flag (s : ChipState)
    (hclosed : ∀ c ∈ s.occupancy.keys, ∀ i ∈ s.wireIndexSetAt c,
      i < s.arena.length) :
    s.calc_total_grid_cost false =
      some (cost_function s.totalWireLength s.get_wire_intersect_amount
        (if ∃ c ∈ s.get_intersection_coords, ∃ i ∈ s.wireIndexSetAt c,
            ∃ j ∈ s.wireIndexSetAt c, i ≠ j ∧
              wires_in_collision (s.wireAt i) (s.wireAt j) = true
          then 1 else 0)) := by
  have hcoll : s.get_grid_wire_collision = true ↔
      ∃ c ∈ s.get_intersection_coords, ∃ i ∈ s.wireIndexSetAt c,
        ∃ j ∈ s.wireIndexSetAt c, i ≠ j ∧
          wires_in_collision (s.wireAt i) (s.wireAt j) = true := by
    unfold ChipState.get_grid_wire_collision
    rw [decide_eq_true_eq]
    refine exists_congr fun c => and_congr_right fun hc => ?_
    have hck : c ∈ s.occupancy.keys :=
      (Finset.mem_filter.mp hc).1
    rw [combos2_any_iff (fun a b => wires_in_collision (s.wireAt a) (s.wireAt b))
      (fun a b => wires_in_collision_symm _ _) (wireIndicesAt_nodup s c)]
    constructor
    · rintro ⟨a, ha, b, hb, hab, hf⟩
      exact ⟨a, (mem_wireIndicesAt.mp ha).2, b, (mem_wireIndicesAt.mp hb).2, hab, hf⟩
    · rintro ⟨a, ha, b, hb, hab, hf⟩
      exact ⟨a, mem_wireIndicesAt.mpr ⟨hclosed c hck a ha, ha⟩,
        b, mem_wireIndicesAt.mpr ⟨hclosed c hck b hb, hb⟩, hab, hf⟩
  have hbase : s.calc_total_grid_cost false =
      some (cost_function s.totalWireLength s.get_wire_intersect_amount
        (if s.get_grid_wire_collision then 1 else 0)) := rfl
  rw [hbase]
  by_cases h : s.get_grid_wire_collision
  · rw [if_pos h, if_pos (hcoll.mp h)]
  · rw [if_neg h, if_neg fun hx => h (hcoll.mpr hx)]

/-- Witness for C1 (amended) at the concrete two-colliding-pairs chip:
the hypothesis holds and the cost evaluates to `1001212`. -/
theorem C1_total_cost_witness :
    chipCollide.calc_total_grid_cost false =
      some (cost_function chipCollide.totalWireLength
        chipCollide.get_wire_intersect_amount
        (if ∃ c ∈ chipCollide.get_intersection_coords,
            ∃ i ∈ chipCollide.wireIndexSetAt c, ∃ j ∈ chipCollide.wireIndexSetAt c,
              i ≠ j ∧ wires_in_collision (chipCollide.wireAt i) (chipCollide.wireAt j) = true
          then 1 else 0)) ∧
    chipCollide.calc_total_grid_cost false = some 1001212 :=
  ⟨C1_total_cost_uses_boolean_collision_flag chipCollide (by decide), by decide⟩

/-- Counterexample to claim C1 as stated: `chipCollide` holds two disjoint
colliding wire pairs (pair count 2), yet its total cost is `1001212` — the
collision contribution is 1,000,000, not 2,000,000, because the cost uses
the boolean `get_grid_wire_collision()`. -/
theorem C1_counterexample :
    specCollisionPairCount chipCollide = 2 ∧
    chipCollide.calc_total_grid_cost false = some 1001212 ∧
    chipCollide.totalWireLength +
        300 * (chipCollide.get_wire_intersect_amount : ℤ) +
        1000000 * (specCollisionPairCount chipCollide : ℤ) = 2001212 ∧
    chipCollide.calc_total_grid_cost false ≠
      some (chipCollide.totalWireLength +
        300 * (chipCollide.get_wire_intersect_amount : ℤ) +
        1000000 * (specCollisionPairCount chipCollide : ℤ)) := by
  decide

/-- Claim C2 (amended): `get_wire_intersect_amount` is the sum over all
non-gate occupancy cells of `min(|occ_wires[c]| - 1, 2)` — the per-cell
contribution is capped at 2, so three wires through one cell contribute 2
and four wires through one cell also contribute 2, not 3.  (The
hypothesis says the two occupancy maps agree in size on non-gate cells,
which every state built through the chip API satisfies.) -/
theorem C2_intersect_amount_caps_per_cell_contribution (s : ChipState)
    (h : ∀ c ∈ s.occupancy.keys, Occupant.gate ∉ s.occupancy.occupancy c →
      (s.occupancy.occupancy c).card = (s.occupancy.occupancy_without_gates c).card) :
    s.get_wire_intersect_amount =
      ∑ c ∈ s.occupancy.keys.filter
          (fun c => Occupant.gate ∉ s.occupancy.occupancy c),
        min ((s.occupancy.occupancy_without_gates c).card - 1) 2 := by
  unfold ChipState.get_wire_intersect_amount ChipState.get_intersection_coords
  rw [Finset.sum_filter, Finset.sum_filter]
  refine Finset.sum_congr rfl fun c hc => ?_
  by_cases hg : Occupant.gate ∉ s.occupancy.occupancy c
  · have hcard := h c hc hg
    by_cases h1 : 1 < (s.occupancy.occupancy c).card
    · rw [if_pos ⟨hg, h1⟩, if_pos hg]
      by_cases h2 : 2 < (s.occupancy.occupancy c).card
      · rw [if_pos h2]
        omega
      · rw [if_neg h2]
        omega
    · rw [if_neg fun hx => h1 hx.2, if_pos hg]
      omega
  · rw [if_neg fun hx => hg hx.1, if_neg hg]

/-- Witness for C2 (amended) at the four-wires-through-one-cell chip. -/
theorem C2_intersect_amount_witness :
    chipCross.get_wire_intersect_amount =
      ∑ c ∈ chipCross.occupancy.keys.filter
          (fun c => Occupant.gate ∉ chipCross.occupancy.occupancy c),
        min ((chipCross.occupancy.occupancy_without_gates c).card - 1) 2 ∧
    chipCross.get_wire_intersect_amount = 6 :=
  ⟨C2_intersect_amount_caps_per_cell_contribution chipCross (by decide), by decide⟩

/-- Counterexample to claim C2 as stated: in `chipCross` the cell
`(2,2,0)` is traversed by four wires; `get_wire_intersect_amount` returns
6, while the claimed formula `Σ max(0, |occ_wires[c]| - 1)` gives 7 (the
four-wire cell contributes 2 in the code, 3 in the claim). -/
theorem C2_counterexample :
    (chipCross.occupancy.occupancy_without_gates ((2:ℤ), (2:ℤ), (0:ℤ))).card = 4 ∧
    chipCross.get_wire_intersect_amount = 6 ∧
    specIntersectAmount chipCross = 7 ∧
    chipCross.get_wire_intersect_amount ≠ specIntersectAmount chipCross := by
  decide

/-!  Pointwise descriptions of the occupancy folds, used by the
construction claim (C3) and the rerouting claim (C7). -/

theorem add_gate_occupancy (o : Occupancy) (c c' : Coords) :
    (o.add_gate c).occupancy c' =
      if c' = c then insert Occupant.gate (o.occupancy c') else o.occupancy c' := by
  unfold Occupancy.add_gate Occupancy.updateFun
  by_cases h : c' = c
  · simp [h]
  · simp [h]

theorem add_gates_occupancy (cs : List Coords) (o : Occupancy) (c : Coords) :
    (o.add_gates cs).occupancy c =
      if c ∈ cs then insert Occupant.gate (o.occupancy c) else o.occupancy c := by
  induction cs generalizing o with
  | nil => simp [Occupancy.add_gates]
  | cons x xs ih =>
    show ((o.add_gate x).add_gates xs).occupancy c = _
    rw [ih]
    rw [add_gate_occupancy]
    by_cases hx : c = x
    · subst hx
      by_cases hxs : c ∈ xs
      · simp [hxs, Finset.insert_idem]
      · simp [hxs]
    · by_cases hxs : c ∈ xs
      · simp [hxs, hx]
      · simp [hxs, hx, List.mem_cons]

theorem add_gates_occupancy_without_gates (cs : List Coords) (o : Occupancy) :
    (o.add_gates cs).occupancy_without_gates = o.occupancy_without_gates := by
  induction cs generalizing o with
  | nil => rfl
  | cons x xs ih => exact ih (o.add_gate x)

/-- Claim C3 (amended): `Chip.__init__` registers only the `GATE` sentinel
in occupancy — no wire handle appears anywhere in either occupancy map —
while every created wire holds exactly its two gate cells.  (The wire
gate cells are registered under the wire's identity only later, by the
sequencers' `run` methods.) -/
theorem C3_construction_registers_gates_only
    (gatesInput : List (ℕ × ℤ × ℤ)) (netlistInput : List (ℕ × ℕ)) (padding : ℤ) :
    (∀ c w, Occupant.wire w ∉
      (mkChip gatesInput netlistInput padding).occupancy.occupancy c) ∧
    (∀ c w, w ∉
      (mkChip gatesInput netlistInput padding).occupancy.occupancy_without_gates c) ∧
    (∀ c ∈ (mkChip gatesInput netlistInput padding).gateCoords,
      Occupant.gate ∈ (mkChip gatesInput netlistInput padding).occupancy.occupancy c) ∧
    (∀ i ∈ (mkChip gatesInput netlistInput padding).wires,
      ((mkChip gatesInput netlistInput padding).wireAt i).coords_wire_segments =
        [((mkChip gatesInput netlistInput padding).wireAt i).gate1,
         ((mkChip gatesInput netlistInput padding).wireAt i).gate2]) := by
  set gates := gatesInput.map fun g => (g.1, ((g.2.1, g.2.2, (0:ℤ)) : Coords)) with hgates
  refine ⟨?_, ?_, ?_, ?_⟩
  · intro c w
    show Occupant.wire w ∉ (Occupancy.empty.add_gates (gates.map Prod.snd)).occupancy c
    rw [add_gates_occupancy]
    by_cases h : c ∈ gates.map Prod.snd
    · simp [h, Occupancy.empty]
    · simp [h, Occupancy.empty]
  · intro c w
    show w ∉ (Occupancy.empty.add_gates (gates.map Prod.snd)).occupancy_without_gates c
    rw [add_gates_occupancy_without_gates]
    simp [Occupancy.empty]
  · intro c hc
    show Occupant.gate ∈ (Occupancy.empty.add_gates (gates.map Prod.snd)).occupancy c
    rw [add_gates_occupancy]
    rw [if_pos (List.mem_toFinset.mp hc)]
    exact Finset.mem_insert_self _ _
  · intro i hi
    have hlen : i < ((mkChip gatesInput netlistInput padding).arena).length :=
      List.mem_range.mp hi
    have harena : (mkChip gatesInput netlistInput padding).arena =
        (mkChip gatesInput netlistInput padding).netlist.map fun conn =>
          WireObj.make (lookupGate gates conn.1) (lookupGate gates conn.2) := rfl
    have hlen' : i < (mkChip gatesInput netlistInput padding).netlist.length := by
      rw [harena, List.length_map] at hlen
      exact hlen
    have hw : (mkChip gatesInput netlistInput padding).wireAt i =
        WireObj.make
          (lookupGate gates
            ((mkChip gatesInput netlistInput padding).netlist.getD i (0, 0)).1)
          (lookupGate gates
            ((mkChip gatesInput netlistInput padding).netlist.getD i (0, 0)).2) := by
      show ((mkChip gatesInput netlistInput padding).arena.getD i default) = _
      rw [harena, List.getD_eq_getElem _ _ (by simpa using hlen'),
        List.getElem_map, List.getD_eq_getElem _ _ hlen']
    rw [hw]
    rfl

/-- Witness for C3 (amended) at the concrete two-gate chip. -/
theorem C3_construction_witness :
    Occupant.wire 0 ∉ chipStraight.occupancy.occupancy ((0:ℤ), (0:ℤ), (0:ℤ)) ∧
    Occupant.gate ∈ chipStraight.occupancy.occupancy ((0:ℤ), (0:ℤ), (0:ℤ)) ∧
    (chipStraight.wireAt 0).coords_wire_segments =
      [(chipStraight.wireAt 0).gate1, (chipStraight.wireAt 0).gate2] :=
  ⟨(C3_construction_registers_gates_only [(1, 0, 0), (2, 2, 0)] [(1, 2)] 1).1 _ 0,
   (C3_construction_registers_gates_only [(1, 0, 0), (2, 2, 0)] [(1, 2)] 1).2.2.1 _
     (by decide),
   (C3_construction_registers_gates_only [(1, 0, 0), (2, 2, 0)] [(1, 2)] 1).2.2.2 0
     (by decide)⟩

/-- Counterexample to claim C3 as stated: directly after construction the
wire of `chipStraight` holds its two gate cells, yet it is registered
nowhere in occupancy — in particular not at its own gate cell `(0,0,0)`,
which holds only the `GATE` sentinel — so the claimed set equality between
a wire's occupancy cells and its segments fails at construction time. -/
theorem C3_counterexample :
    (chipStraight.wireAt 0).coords_wire_segments = [((0:ℤ), (0:ℤ), (0:ℤ)), (2, 0, 0)] ∧
    Occupant.wire 0 ∉ chipStraight.occupancy.occupancy ((0:ℤ), (0:ℤ), (0:ℤ)) ∧
    chipStraight.occupancy.occupancy ((0:ℤ), (0:ℤ), (0:ℤ)) = {Occupant.gate} := by
  decide

theorem manhattan_distance_pos {a b : Coords} (h : a ≠ b) :
    1 ≤ manhattan_distance a b := by
  obtain ⟨a1, a2, a3⟩ := a
  obtain ⟨b1, b2, b3⟩ := b
  by_contra hlt
  unfold manhattan_distance at hlt
  dsimp only at hlt
  apply h
  have h1 : a1 = b1 := by omega
  have h2 : a2 = b2 := by omega
  have h3 : a3 = b3 := by omega
  rw [h1, h2, h3]

theorem mem_get_neighbours_adj {s : ChipState} {c n : Coords}
    (h : n ∈ s.get_neighbours c) : are_points_neighbours c n = true := by
  unfold ChipState.get_neighbours at h
  have hm := List.mem_of_mem_filter h
  obtain ⟨o, ho, rfl⟩ := List.mem_map.mp hm
  obtain ⟨c1, c2, c3⟩ := c
  simp only [ChipState.allOffsetCombos, List.mem_cons, List.not_mem_nil, or_false] at ho
  rcases ho with rfl | rfl | rfl | rfl | rfl | rfl <;>
    · simp only [are_points_neighbours, manhattan_distance, beq_iff_eq]
      omega

theorem BfsEntryInv.mono {s : ChipState} {start end_ : Coords} {limit : ℕ}
    {v v' : Finset Coords} {e : Coords × List Coords}
    (hsub : v ⊆ v') (h : BfsEntryInv s start end_ limit v e) :
    BfsEntryInv s start end_ limit v' e :=
  ⟨h.1, h.2.1, h.2.2.1, h.2.2.2.1, h.2.2.2.2.1, h.2.2.2.2.2.1, h.2.2.2.2.2.2.1,
    fun x hx => hsub (h.2.2.2.2.2.2.2 x hx)⟩

theorem bfsExpand_preserves {s : ChipState} {start end_ : Coords} {limit : ℕ}
    {asc : Bool} {current : Coords} {path : List Coords}
    {acc : List (Coords × List Coords) × Finset Coords} {n : Coords}
    (hpop : BfsEntryInv s start end_ limit acc.2 (current, path))
    (hlen : path.length ≤ limit)
    (hadj : are_points_neighbours current n = true)
    (hinv : ∀ e ∈ acc.1, BfsEntryInv s start end_ limit acc.2 e) :
    (∀ e ∈ (bfsExpand s end_ asc current path acc n).1,
      BfsEntryInv s start end_ limit (bfsExpand s end_ asc current path acc n).2 e) ∧
    acc.2 ⊆ (bfsExpand s end_ asc current path acc n).2 := by
  obtain ⟨queue, visited⟩ := acc
  unfold bfsExpand
  dsimp only at *
  split_ifs with h1 h2 h3 h4
  · exact ⟨hinv, le_refl _⟩
  · exact ⟨hinv, le_refl _⟩
  · exact ⟨hinv, le_refl _⟩
  · exact ⟨hinv, le_refl _⟩
  · refine ⟨?_, Finset.subset_insert n visited⟩
    intro e he
    rcases List.mem_append.mp he with he | he
    · exact (hinv e he).mono (Finset.subset_insert n visited)
    · rw [List.mem_singleton.mp he]
      obtain ⟨hne, hhead, hlast, hnd, hch, -, hgate, hvis⟩ := hpop
      have hnp : n ∉ path := fun hx => h1 (hvis n hx)
      refine ⟨by simp, ?_, ?_, ?_, ?_, ?_, ?_, ?_⟩
      · rcases path with - | ⟨y, ys⟩
        · exact absurd rfl hne
        · simpa using hhead
      · simp [List.getLast?_concat]
      · exact List.Nodup.append hnd (List.nodup_singleton n)
          (by simpa using fun hx => hnp hx)
      · rw [List.chain'_append]
        refine ⟨hch, List.chain'_singleton n, fun x hx y hy => ?_⟩
        rw [hlast] at hx
        rw [List.head?_cons] at hy
        cases Option.mem_some_iff.mp hx
        cases Option.mem_some_iff.mp hy
        exact hadj
      · simp only [List.length_append, List.length_singleton]
        omega
      · intro x hx hgx
        rcases path with - | ⟨y, ys⟩
        · exact absurd rfl hne
        · simp only [List.cons_append, List.tail_cons, List.mem_append,
            List.mem_singleton] at hx
          rcases hx with hx | rfl
          · exact hgate x (by simpa using hx) hgx
          · by_contra hxe
            exact h3 ⟨hgx, hxe⟩
      · intro x hx
        rcases List.mem_append.mp hx with hx | hx
        · exact Finset.mem_insert_of_mem (hvis x hx)
        · rw [List.mem_singleton.mp hx]
          exact Finset.mem_insert_self n visited

theorem bfsExpand_foldl_preserves {s : ChipState} {start end_ : Coords} {limit : ℕ}
    {asc : Bool} {current : Coords} {path : List Coords} :
    ∀ (ns : List Coords) (acc : List (Coords × List Coords) × Finset Coords),
    BfsEntryInv s start end_ limit acc.2 (current, path) →
    path.length ≤ limit →
    (∀ n ∈ ns, are_points_neighbours current n = true) →
    (∀ e ∈ acc.1, BfsEntryInv s start end_ limit acc.2 e) →
    ∀ e ∈ (ns.foldl (bfsExpand s end_ asc current path) acc).1,
      BfsEntryInv s start end_ limit
        (ns.foldl (bfsExpand s end_ asc current path) acc).2 e := by
  intro ns
  induction ns with
  | nil => exact fun acc _ _ _ hinv e he => hinv e he
  | cons n ns ih =>
    intro acc hpop hlen hadj hinv
    have step := @bfsExpand_preserves s start end_ limit asc current path acc n
      hpop hlen (hadj n (List.mem_cons_self n ns)) hinv
    exact ih _ (hpop.mono step.2) hlen
      (fun m hm => hadj m (List.mem_cons_of_mem n hm)) step.1

theorem bfsRouteLoop_sound {s : ChipState} {start end_ : Coords} {limit : ℕ}
    {asc : Bool} :
    ∀ (fuel : ℕ) (queue : List (Coords × List Coords)) (visited : Finset Coords)
      (p : List Coords),
    (∀ e ∈ queue, BfsEntryInv s start end_ limit visited e) →
    bfsRouteLoop s end_ limit asc fuel queue visited = some (some p) →
    ∃ raw : List Coords, raw.head? = some start ∧ raw.getLast? = some end_ ∧
      raw.Nodup ∧ List.Chain' (fun a b => are_points_neighbours a b = true) raw ∧
      raw.length ≤ limit + 1 ∧
      (∀ x ∈ raw.tail, Occupant.gate ∈ s.get_coord_occupancy x → x = end_) ∧
      p = pathInterior raw := by
  intro fuel
  induction fuel with
  | zero => exact fun queue visited p _ hres => absurd hres (by simp [bfsRouteLoop])
  | succ fuel ih =>
    intro queue visited p hinv hres
    match queue with
    | [] => exact absurd hres (by simp [bfsRouteLoop])
    | (current, path) :: rest =>
      rw [bfsRouteLoop] at hres
      by_cases hend : current = end_
      · rw [if_pos hend] at hres
        obtain ⟨hne, hhead, hlast, hnd, hch, hlen, hgate, -⟩ :=
          hinv (current, path) (List.mem_cons_self _ _)
        refine ⟨path, hhead, hend ▸ hlast, hnd, hch, hlen, hgate, ?_⟩
        exact (Option.some.inj (Option.some.inj hres)).symm
      · rw [if_neg hend] at hres
        by_cases hlim : limit < path.length
        · rw [if_pos hlim] at hres
          exact ih rest visited p
            (fun e he => hinv e (List.mem_cons_of_mem _ he)) hres
        · rw [if_neg hlim] at hres
          refine ih _ _ p ?_ hres
          exact bfsExpand_foldl_preserves (s.get_neighbours current) (rest, visited)
            (hinv (current, path) (List.mem_cons_self _ _))
            (Nat.le_of_not_lt hlim)
            (fun n hn => mem_get_neighbours_adj hn)
            (fun e he => hinv e (List.mem_cons_of_mem _ he))

/-- Claim C5: every path returned by the bounded BFS `bfs_route` gives a
full start-to-end path (start, interior, end) of at most
`manhattan_distance(start, end) + offset` edges. -/
theorem C5_bfs_route_length_bound {s : ChipState} {start end_ : Coords}
    {offset fuel : ℕ} {asc : Bool} {p : List Coords}
    (hne : start ≠ end_)
    (hres : bfs_route s start end_ offset asc fuel = some (some p)) :
    p.length + 1 ≤ manhattan_distance start end_ + offset := by
  have hinit : ∀ e ∈ [(start, [start])],
      BfsEntryInv s start end_ (manhattan_distance start end_ + offset)
        ({start} : Finset Coords) e := by
    intro e he
    rw [List.mem_singleton.mp he]
    refine ⟨by simp, rfl, rfl, List.nodup_singleton _, List.chain'_singleton _,
      by simp, by simp, by simp⟩
  obtain ⟨raw, -, -, -, -, hlen, -, hp⟩ :=
    bfsRouteLoop_sound fuel [(start, [start])] {start} p hinit hres
  subst hp
  unfold pathInterior
  by_cases h2 : 2 < raw.length
  · rw [if_pos h2]
    rw [List.length_dropLast, List.length_drop]
    omega
  · rw [if_neg h2]
    have := manhattan_distance_pos hne
    simp only [List.length_nil]
    omega

/-- Witness for C5 at the concrete straight-line chip: the bounded BFS with
offset 0 returns the interior `[(1,0,0)]`, a 2-edge path within the bound
`manhattan = 2`. -/
theorem C5_bfs_route_length_bound_witness :
    ([((1:ℤ), (0:ℤ), (0:ℤ))].length + 1 ≤
      manhattan_distance ((0:ℤ), (0:ℤ), (0:ℤ)) ((2:ℤ), (0:ℤ), (0:ℤ)) + 0) :=
  @C5_bfs_route_length_bound chipStraight ((0:ℤ), (0:ℤ), (0:ℤ))
    ((2:ℤ), (0:ℤ), (0:ℤ)) 0 40 false [((1:ℤ), (0:ℤ), (0:ℤ))]
    (by decide) (by decide)

theorem bfsExactExpand_preserves {s : ChipState} {start end_ current : Coords}
    {path : List Coords}
    {acc : List (Coords × List Coords) × Finset (Coords × ℕ)} {n : Coords}
    (hpop : BfsExactEntryInv start (current, path))
    (hinv : ∀ e ∈ acc.1, BfsExactEntryInv start e) :
    ∀ e ∈ (bfsExactExpand s end_ current path acc n).1, BfsExactEntryInv start e := by
  obtain ⟨queue, visited⟩ := acc
  unfold bfsExactExpand
  dsimp only at *
  split_ifs with h1 h2 h3 h4
  · exact hinv
  · exact hinv
  · exact hinv
  · exact hinv
  · intro e he
    rcases List.mem_append.mp he with he | he
    · exact hinv e he
    · rw [List.mem_singleton.mp he]
      obtain ⟨hne, hhead, hlast, hnd⟩ := hpop
      refine ⟨by simp, ?_, by simp [List.getLast?_concat], ?_⟩
      · rcases path with - | ⟨y, ys⟩
        · exact absurd rfl hne
        · simpa using hhead
      · exact List.Nodup.append hnd (List.nodup_singleton n)
          (by simpa using fun hx => h1 hx)

theorem bfsExactExpand_foldl_preserves {s : ChipState} {start end_ current : Coords}
    {path : List Coords} :
    ∀ (ns : List Coords) (acc : List (Coords × List Coords) × Finset (Coords × ℕ)),
    BfsExactEntryInv start (current, path) →
    (∀ e ∈ acc.1, BfsExactEntryInv start e) →
    ∀ e ∈ (ns.foldl (bfsExactExpand s end_ current path) acc).1,
      BfsExactEntryInv start e := by
  intro ns
  induction ns with
  | nil => exact fun acc _ hinv e he => hinv e he
  | cons n ns ih =>
    intro acc hpop hinv
    exact ih _ hpop (bfsExactExpand_preserves hpop hinv)

theorem bfsExactLoop_sound {s : ChipState} {start end_ : Coords} {L : ℕ} :
    ∀ (fuel : ℕ) (queue : List (Coords × List Coords))
      (visited : Finset (Coords × ℕ)) (p : List Coords),
    (∀ e ∈ queue, BfsExactEntryInv start e) →
    bfsExactLoop s end_ L fuel queue visited = some (some p) →
    ∃ raw : List Coords, raw.head? = some start ∧ raw.getLast? = some end_ ∧
      raw.Nodup ∧ raw.length = L ∧ p = pathInterior raw := by
  intro fuel
  induction fuel with
  | zero => exact fun queue visited p _ hres => absurd hres (by simp [bfsExactLoop])
  | succ fuel ih =>
    intro queue visited p hinv hres
    match queue with
    | [] => exact absurd hres (by simp [bfsExactLoop])
    | (current, path) :: rest =>
      rw [bfsExactLoop] at hres
      by_cases hend : current = end_ ∧ path.length = L
      · rw [if_pos hend] at hres
        obtain ⟨hne, hhead, hlast, hnd⟩ := hinv (current, path) (List.mem_cons_self _ _)
        exact ⟨path, hhead, hend.1 ▸ hlast, hnd, hend.2,
          (Option.some.inj (Option.some.inj hres)).symm⟩
      · rw [if_neg hend] at hres
        by_cases hlim : L < path.length
        · rw [if_pos hlim] at hres
          exact ih rest visited p
            (fun e he => hinv e (List.mem_cons_of_mem _ he)) hres
        · rw [if_neg hlim] at hres
          exact ih _ _ p
            (bfsExactExpand_foldl_preserves (s.get_neighbours current) (rest, visited)
              (hinv (current, path) (List.mem_cons_self _ _))
              (fun e he => hinv e (List.mem_cons_of_mem _ he))) hres

/-- Claim C4 (amended): every successful `bfs_route_exact_length(chip,
start, end, exact_length=L)` call returns the interior of a full path
with exactly `L` *cells* — `dist = len(path)` counts cells, so the full
path has `L - 1` edges, not `L` — and since candidate cells already on
the current path are pruned, the returned path never re-enters a cell:
its cells are pairwise distinct.  (The `(cell, distance)`-keyed visited
set only lets *different* partial paths reach the same cell at different
depths.) -/
theorem C4_exact_length_counts_cells {s : ChipState} {start end_ : Coords}
    {L fuel : ℕ} {p : List Coords}
    (hres : bfs_route_exact_length s start end_ L fuel = some (some p)) :
    ∃ raw : List Coords, raw.head? = some start ∧ raw.getLast? = some end_ ∧
      raw.Nodup ∧ raw.length = L ∧ p = pathInterior raw := by
  refine bfsExactLoop_sound fuel [(start, [start])] ∅ p ?_ hres
  intro e he
  rw [List.mem_singleton.mp he]
  exact ⟨by simp, rfl, rfl, List.nodup_singleton _⟩

/-- Witness for C4 (amended) at the concrete straight-line chip with
`exact_length = 3`. -/
theorem C4_exact_length_witness :
    ∃ raw : List Coords, raw.head? = some ((0:ℤ), (0:ℤ), (0:ℤ)) ∧
      raw.getLast? = some ((2:ℤ), (0:ℤ), (0:ℤ)) ∧
      raw.Nodup ∧ raw.length = 3 ∧ [((1:ℤ), (0:ℤ), (0:ℤ))] = pathInterior raw :=
  @C4_exact_length_counts_cells chipStraight ((0:ℤ), (0:ℤ), (0:ℤ))
    ((2:ℤ), (0:ℤ), (0:ℤ)) 3 40 [((1:ℤ), (0:ℤ), (0:ℤ))] (by decide)

/-- Counterexample to claim C4 as stated: on `chipStraight` the call with
`exact_length = 3` succeeds with interior `[(1,0,0)]`, and the full path
`(0,0,0), (1,0,0), (2,0,0)` has 2 edges, not 3 — `exact_length` counts
cells.  Its cells are also pairwise distinct, as every returned path's
are (see the amended theorem), so a returned path never re-enters a
cell. -/
theorem C4_counterexample :
    bfs_route_exact_length chipStraight ((0:ℤ), (0:ℤ), (0:ℤ)) ((2:ℤ), (0:ℤ), (0:ℤ))
        3 40 = some (some [((1:ℤ), (0:ℤ), (0:ℤ))]) ∧
    (((0:ℤ), (0:ℤ), (0:ℤ)) :: [((1:ℤ), (0:ℤ), (0:ℤ))] ++
        [((2:ℤ), (0:ℤ), (0:ℤ))]).length - 1 = 2 ∧
    (2 : ℕ) ≠ 3 ∧
    (((0:ℤ), (0:ℤ), (0:ℤ)) :: [((1:ℤ), (0:ℤ), (0:ℤ))] ++
        [((2:ℤ), (0:ℤ), (0:ℤ))]).Nodup := by
  decide

theorem coordsLt_asymm {a b : Coords} (h : coordsLt a b = true) :
    coordsLt b a = false := by
  rw [Bool.eq_false_iff]
  intro h'
  simp only [coordsLt, Bool.or_eq_true, Bool.and_eq_true, decide_eq_true_eq,
    beq_iff_eq] at h h'
  rcases h with h1 | ⟨he1, h2 | ⟨he2, h3⟩⟩ <;>
    rcases h' with g1 | ⟨ge1, g2 | ⟨ge2, g3⟩⟩ <;> omega

theorem coordsLt_irrefl (a : Coords) : coordsLt a a = false := by
  rw [Bool.eq_false_iff]
  intro h
  simp only [coordsLt, Bool.or_eq_true, Bool.and_eq_true, decide_eq_true_eq,
    beq_iff_eq] at h
  rcases h with h1 | ⟨he1, h2 | ⟨he2, h3⟩⟩ <;> omega

theorem coordListLt_asymm : ∀ {l1 l2 : List Coords},
    coordListLt l1 l2 = true → coordListLt l2 l1 = false
  | [], [], h => absurd h (by simp [coordListLt])
  | [], _ :: _, _ => rfl
  | _ :: _, [], h => absurd h (by simp [coordListLt])
  | a :: as', b :: bs', h => by
    rw [Bool.eq_false_iff]
    intro h'
    simp only [coordListLt, Bool.or_eq_true, Bool.and_eq_true, beq_iff_eq] at h h'
    rcases h with h | ⟨hab, h⟩
    · rcases h' with h' | ⟨hba, h'⟩
      · rw [coordsLt_asymm h] at h'
        exact Bool.false_ne_true h'
      · rw [hba, coordsLt_irrefl] at h
        exact Bool.false_ne_true h
    · rcases h' with h' | ⟨hba, h'⟩
      · rw [hab, coordsLt_irrefl] at h'
        exact Bool.false_ne_true h'
      · rw [coordListLt_asymm h] at h'
        exact Bool.false_ne_true h'

theorem entryLt_asymm {a b : AStarEntry} (h : entryLt a b = true) :
    entryLt b a = false := by
  rw [Bool.eq_false_iff]
  intro h'
  simp only [entryLt, Bool.or_eq_true, Bool.and_eq_true, decide_eq_true_eq,
    beq_iff_eq] at h h'
  rcases h with h | ⟨he, h⟩
  · rcases h' with h' | ⟨he', -⟩ <;> omega
  · rcases h' with h' | ⟨he', h'⟩
    · omega
    · rcases h with hc | ⟨hce, hl⟩
      · rcases h' with hc' | ⟨hce', -⟩
        · rw [coordsLt_asymm hc] at hc'
          exact Bool.false_ne_true hc'
        · rw [hce', coordsLt_irrefl] at hc
          exact Bool.false_ne_true hc
      · rcases h' with hc' | ⟨hce', hl'⟩
        · rw [hce, coordsLt_irrefl] at hc'
          exact Bool.false_ne_true hc'
        · rw [coordListLt_asymm hl] at hl'
          exact Bool.false_ne_true hl'

theorem heappush_empty (e : AStarEntry) : heappush #[] e = #[e] := rfl

theorem heappush_one_unfold (e1 e2 : AStarEntry) :
    heappush #[e1] e2 =
      if entryLt e2 e1 = true then siftdownLoop 0 1 #[e1, e1] e2 0
      else #[e1, e2] := by
  show siftdownLoop 0 2 #[e1, e2] e2 1 = _
  rw [siftdownLoop]
  rfl

theorem heappush_one_of_lt {e1 e2 : AStarEntry} (h : entryLt e2 e1 = true) :
    heappush #[e1] e2 = #[e2, e1] := by
  rw [heappush_one_unfold, if_pos h]
  rfl

theorem heappush_one_of_ge {e1 e2 : AStarEntry} (h : entryLt e2 e1 = false) :
    heappush #[e1] e2 = #[e1, e2] := by
  rw [heappush_one_unfold, if_neg (by simp [h])]

theorem heappop_two (e1 e2 : AStarEntry) : heappop #[e1, e2] = some (e1, #[e2]) := rfl

theorem aStarLoop_first_goal {s : ChipState} {end_ : Coords} {asc : Bool} :
    ∀ (fuel : ℕ) (frontier : Array AStarEntry) (visited : Finset Coords)
      (p : List Coords),
    (aStarLoop s end_ asc fuel frontier visited).2 = some (some p) →
    ∃ (tr : List AStarEntry) (en : AStarEntry),
      (aStarLoop s end_ asc fuel frontier visited).1 = tr ++ [en] ∧
      en.2.1 = end_ ∧ p = pathInterior en.2.2 ∧ ∀ e' ∈ tr, e'.2.1 ≠ end_ := by
  intro fuel
  induction fuel with
  | zero => exact fun frontier visited p hres => absurd hres (by simp [aStarLoop])
  | succ fuel ih =>
    intro frontier visited p hres
    rw [aStarLoop] at hres ⊢
    match hpop : heappop frontier with
    | none =>
      rw [hpop] at hres
      dsimp only at hres
      exact absurd (Option.some.inj hres) (by simp)
    | some (e, frontier') =>
      rw [hpop] at hres
      dsimp only at hres ⊢
      by_cases he : e.2.1 = end_
      · rw [if_pos he] at hres ⊢
        exact ⟨[], e, rfl, he, (Option.some.inj (Option.some.inj hres)).symm,
          by simp⟩
      · rw [if_neg he] at hres ⊢
        dsimp only at hres ⊢
        obtain ⟨tr, en, htr, hen, hp, hne⟩ := ih _ _ p hres
        refine ⟨e :: tr, en, ?_, hen, hp, ?_⟩
        · rw [List.cons_append, htr]
        · intro e' he'
          rcases List.mem_cons.mp he' with rfl | he'
          · exact he
          · exact hne e' he'

/-- Claim C6 (amended): the A* `shortest_cable` loop returns the interior
of the *first* popped frontier entry ending at the goal (no earlier pop
ends there); but when two frontier entries have equal f-cost, `heapq`
breaks the tie by the Python tuple comparison on `(cost, cell, path)` —
the entry with the lexicographically smaller `(cell, path)` key is popped
first, regardless of insertion order. -/
theorem C6_first_goal_pop_and_lex_tie_break :
    (∀ (s : ChipState) (end_ : Coords) (asc : Bool) (fuel : ℕ)
       (frontier : Array AStarEntry) (visited : Finset Coords) (p : List Coords),
      (aStarLoop s end_ asc fuel frontier visited).2 = some (some p) →
      ∃ (tr : List AStarEntry) (en : AStarEntry),
        (aStarLoop s end_ asc fuel frontier visited).1 = tr ++ [en] ∧
        en.2.1 = end_ ∧ p = pathInterior en.2.2 ∧ ∀ e' ∈ tr, e'.2.1 ≠ end_) ∧
    (∀ e1 e2 : AStarEntry, e1.1 = e2.1 → entryLt e1 e2 = true →
      heappop (heappush (heappush #[] e1) e2) = some (e1, #[e2]) ∧
      heappop (heappush (heappush #[] e2) e1) = some (e1, #[e2])) := by
  refine ⟨fun s end_ asc => aStarLoop_first_goal, fun e1 e2 _ hlt => ?_⟩
  constructor
  · rw [heappush_empty, heappush_one_of_ge (entryLt_asymm hlt), heappop_two]
  · rw [heappush_empty, heappush_one_of_lt hlt, heappop_two]

/-- Witness for C6 (amended): the first conjunct applied to the concrete
A* run on `chipStraight` (goal `(2,0,0)`, returning interior `[(1,0,0)]`)
and the second applied to two concrete equal-cost entries. -/
theorem C6_first_goal_pop_witness :
    (∃ (tr : List AStarEntry) (en : AStarEntry),
      (aStarLoop chipStraight ((2:ℤ), (0:ℤ), (0:ℤ)) true 100
        (heappush #[]
          (heuristic_function chipStraight [((0:ℤ), (0:ℤ), (0:ℤ))] ((2:ℤ), (0:ℤ), (0:ℤ)),
            ((0:ℤ), (0:ℤ), (0:ℤ)), [((0:ℤ), (0:ℤ), (0:ℤ))]))
        {((0:ℤ), (0:ℤ), (0:ℤ))}).1 = tr ++ [en] ∧
      en.2.1 = ((2:ℤ), (0:ℤ), (0:ℤ)) ∧
      [((1:ℤ), (0:ℤ), (0:ℤ))] = pathInterior en.2.2 ∧
      ∀ e' ∈ tr, e'.2.1 ≠ ((2:ℤ), (0:ℤ), (0:ℤ))) ∧
    heappop (heappush (heappush #[]
        ((5:ℤ), ((0:ℤ), (0:ℤ), (0:ℤ)), ([] : List Coords)))
        ((5:ℤ), ((1:ℤ), (0:ℤ), (0:ℤ)), ([] : List Coords))) =
      some (((5:ℤ), ((0:ℤ), (0:ℤ), (0:ℤ)), ([] : List Coords)),
        #[((5:ℤ), ((1:ℤ), (0:ℤ), (0:ℤ)), ([] : List Coords))]) :=
  ⟨C6_first_goal_pop_and_lex_tie_break.1 chipStraight _ true 100 _ _ _ (by decide),
   (C6_first_goal_pop_and_lex_tie_break.2
     ((5:ℤ), ((0:ℤ), (0:ℤ), (0:ℤ)), ([] : List Coords))
     ((5:ℤ), ((1:ℤ), (0:ℤ), (0:ℤ)), ([] : List Coords)) rfl (by decide)).1⟩

/-- Counterexample to claim C6 as stated: two frontier entries with equal
f-cost 5, the entry at cell `(1,0,0)` inserted first and the entry at the
lexicographically smaller cell `(0,0,0)` inserted second; `heappop`
returns the *later*-inserted entry, so ties are not broken by insertion
order. -/
theorem C6_counterexample :
    heappop (heappush (heappush #[]
        ((5:ℤ), ((1:ℤ), (0:ℤ), (0:ℤ)), [((1:ℤ), (0:ℤ), (0:ℤ))]))
        ((5:ℤ), ((0:ℤ), (0:ℤ), (0:ℤ)), [((0:ℤ), (0:ℤ), (0:ℤ))])) =
      some (((5:ℤ), ((0:ℤ), (0:ℤ), (0:ℤ)), [((0:ℤ), (0:ℤ), (0:ℤ))]),
        #[((5:ℤ), ((1:ℤ), (0:ℤ), (0:ℤ)), [((1:ℤ), (0:ℤ), (0:ℤ))])]) ∧
    (((5:ℤ), ((0:ℤ), (0:ℤ), (0:ℤ)), [((0:ℤ), (0:ℤ), (0:ℤ))]) : AStarEntry) ≠
      ((5:ℤ), ((1:ℤ), (0:ℤ), (0:ℤ)), [((1:ℤ), (0:ℤ), (0:ℤ))]) := by
  constructor
  · rw [heappush_empty, heappush_one_of_lt (by decide), heappop_two]
  · decide

theorem ite_lt_le (a b : ℤ) : (if a < b then a else b) ≤ b := by
  split_ifs with h
  · exact le_of_lt h
  · exact le_refl b

theorem temp_update_lowest (s : OptState) (c : Prop) [Decidable c] (q : ℚ) :
    ((if c then { s with temperature := q } else s) : OptState).lowest_cost =
      s.lowest_cost := by
  split <;> rfl

theorem revert_or_keep_lowest (st : OptState) (chip2 : ChipState)
    (wires : List ℕ) (old_wire_coords : List (List Coords)) (new_cost : ℤ)
    (c : Prop) [Decidable c] :
    ((if c then optRevertRestore st chip2 wires old_wire_coords
      else optAcceptKeep st chip2 new_cost) : OptState).lowest_cost ≤
      st.lowest_cost := by
  split
  · exact le_refl _
  · exact ite_lt_le _ _

theorem optimize_one_permutation_lowest_le (st : OptState) (wires : List ℕ)
    (iteration total_permutations : ℕ) (switch_equal_configs : Bool)
    (saAccept : ℤ → ℤ → ℚ → ℕ → Bool × ℕ) (cooling : ℕ → ℕ → ℚ) (rng fuel : ℕ) :
    (optimize_n_wires_1_permutation st wires iteration total_permutations
      switch_equal_configs saAccept cooling rng fuel).1.lowest_cost ≤
      st.lowest_cost := by
  unfold optimize_n_wires_1_permutation
  dsimp only
  rw [temp_update_lowest]
  apply revert_or_keep_lowest

theorem foldl_le_of_step {β γ : Type} (meas : γ → ℤ) (f : γ → β → γ)
    (hf : ∀ acc b, meas (f acc b) ≤ meas acc) :
    ∀ (l : List β) (acc : γ), meas (l.foldl f acc) ≤ meas acc := by
  intro l
  induction l with
  | nil => exact fun acc => le_refl _
  | cons x xs ih => exact fun acc => le_trans (ih (f acc x)) (hf acc x)

theorem optimize_all_permutations_lowest_le (st : OptState) (amount_of_wires : ℕ)
    (switch_equal_configs : Bool) (saAccept : ℤ → ℤ → ℚ → ℕ → Bool × ℕ)
    (cooling : ℕ → ℕ → ℚ) (rng fuel : ℕ) :
    (optimize_n_wires_all_permutations st amount_of_wires switch_equal_configs
      saAccept cooling rng fuel).1.lowest_cost ≤ st.lowest_cost := by
  unfold optimize_n_wires_all_permutations
  dsimp only
  have hfold := foldl_le_of_step (fun acc : OptState × ℕ × ℕ => acc.1.lowest_cost)
    (fun acc ws =>
      let r := optimize_n_wires_1_permutation acc.1 ws acc.2.2
        (Nat.descFactorial st.chip.wires.length amount_of_wires)
        switch_equal_configs saAccept cooling acc.2.1 fuel
      (r.1, r.2, acc.2.2 + 1))
    (fun acc ws => optimize_one_permutation_lowest_le acc.1 ws acc.2.2 _
      switch_equal_configs saAccept cooling acc.2.1 fuel)
    (kperms amount_of_wires st.chip.wires) (st, rng, 0)
  split_ifs <;> exact hfold

theorem optimize_random_permutations_lowest_le (st : OptState)
    (amount_of_wires amount_of_iterations : ℕ) (switch_equal_configs : Bool)
    (saAccept : ℤ → ℤ → ℚ → ℕ → Bool × ℕ) (cooling : ℕ → ℕ → ℚ)
    (sample : ℕ → List ℕ → ℕ → List ℕ × ℕ) (rng fuel : ℕ) :
    (optimize_n_wires_random_permutations st amount_of_wires amount_of_iterations
      switch_equal_configs saAccept cooling sample rng fuel).1.lowest_cost ≤
      st.lowest_cost := by
  unfold optimize_n_wires_random_permutations
  dsimp only
  have hfold := foldl_le_of_step (fun acc : OptState × ℕ => acc.1.lowest_cost)
    (fun acc it =>
      optimize_n_wires_1_permutation acc.1
        (sample amount_of_wires acc.1.chip.wires acc.2).1 it amount_of_iterations
        switch_equal_configs saAccept cooling
        (sample amount_of_wires acc.1.chip.wires acc.2).2 fuel)
    (fun acc it => optimize_one_permutation_lowest_le acc.1 _ it
      amount_of_iterations switch_equal_configs saAccept cooling _ fuel)
    (List.range amount_of_iterations) (st, rng)
  split_ifs <;> exact hfold

theorem optimizeWhileLoop_lowest_le (usesAllPermutations : Bool)
    (amount_of_wires : ℕ) (start_temperature : ℚ)
    (amount_of_random_iterations : ℕ) (saAccept : ℤ → ℤ → ℚ → ℕ → Bool × ℕ)
    (cooling : ℕ → ℕ → ℚ) (sample : ℕ → List ℕ → ℕ → List ℕ × ℕ) (fuel : ℕ) :
    ∀ (cycleFuel cycle : ℕ) (st : OptState) (rng : ℕ),
    (optimizeWhileLoop usesAllPermutations amount_of_wires start_temperature
      amount_of_random_iterations saAccept cooling sample fuel cycleFuel cycle st
      rng).1.lowest_cost ≤ st.lowest_cost := by
  intro cycleFuel
  induction cycleFuel with
  | zero => exact fun cycle st rng => le_refl _
  | succ cycleFuel ih =>
    intro cycle st rng
    rw [optimizeWhileLoop]
    dsimp only
    by_cases hall : usesAllPermutations
    · rw [if_pos hall]
      have hc := optimize_all_permutations_lowest_le
        { st with temperature := start_temperature } amount_of_wires
        (decide (cycle = 1)) saAccept cooling rng fuel
      split_ifs with himp
      · exact le_trans (ih (cycle + 1) _ _) hc
      · exact hc
    · rw [if_neg hall]
      have hc := optimize_random_permutations_lowest_le
        { st with temperature := start_temperature } amount_of_wires
        amount_of_random_iterations (decide (cycle = 1)) saAccept cooling sample
        rng fuel
      split_ifs with himp
      · exact le_trans (ih (cycle + 1) _ _) hc
      · exact hc

/-- Claim C8: `lowest_cost` never increases.  First conjunct: after every
single-permutation attempt (`optimize_n_wires_1_permutation`) the tracked
`lowest_cost` is at most its value before the attempt — it is only ever
overwritten under the guard `new_cost < lowest_cost`.  Second conjunct:
hence the full `optimize` run with `reroute_n_wires = 1` and
`start_temperature = 0` never increases `lowest_cost` across cycles. -/
theorem C8_optimize_lowest_cost_monotone :
    (∀ (st : OptState) (wires : List ℕ) (iteration total_permutations : ℕ)
       (switch_equal_configs : Bool) (saAccept : ℤ → ℤ → ℚ → ℕ → Bool × ℕ)
       (cooling : ℕ → ℕ → ℚ) (rng fuel : ℕ),
      (optimize_n_wires_1_permutation st wires iteration total_permutations
        switch_equal_configs saAccept cooling rng fuel).1.lowest_cost ≤
        st.lowest_cost) ∧
    (∀ (st : OptState) (total_permutations_limit amount_of_random_iterations : ℕ)
       (saAccept : ℤ → ℤ → ℚ → ℕ → Bool × ℕ) (cooling : ℕ → ℕ → ℚ)
       (sample : ℕ → List ℕ → ℕ → List ℕ × ℕ) (rng fuel cycleFuel : ℕ),
      (optimize st 1 0 total_permutations_limit amount_of_random_iterations
        saAccept cooling sample rng fuel cycleFuel).1.lowest_cost ≤
        st.lowest_cost) := by
  refine ⟨optimize_one_permutation_lowest_le, ?_⟩
  intro st limit randIters saAccept cooling sample rng fuel cycleFuel
  unfold optimize
  dsimp only [List.range'_one, List.foldl_cons, List.foldl_nil]
  exact optimizeWhileLoop_lowest_le _ 1 0 randIters saAccept cooling sample fuel
    cycleFuel 1 { st with temperature := 0 } rng

/-- Claim C9: two runs of the Pseudo-Random sequencer constructed with the
same random seed (`Greed_random.__init__` seeds the generator) on
identical initial chips produce identical outputs — the wire segment
lists agree wire by wire.  All randomness flows through the explicitly
threaded generator state, so the run is a pure function of the seed and
the initial chip. -/
theorem C9_pseudo_random_same_seed_deterministic
    (seed1 seed2 : ℕ) (chip1 chip2 : ChipState) (max_offset fuel : ℕ)
    (hseed : seed1 = seed2) (hchip : chip1 = chip2) :
    (pseudo_random_run chip1 max_offset (greedRandomSeedState seed1) fuel).1.wire_segment_list =
      (pseudo_random_run chip2 max_offset (greedRandomSeedState seed2) fuel).1.wire_segment_list := by
  rw [hseed, hchip]

/-- Witness for C9 at seed 42 on the concrete two-gate chip. -/
theorem C9_pseudo_random_witness :
    (pseudo_random_run chipStraight 20 (greedRandomSeedState 42) 60).1.wire_segment_list =
      (pseudo_random_run chipStraight 20 (greedRandomSeedState 42) 60).1.wire_segment_list ∧
    (pseudo_random_run chipStraight 20 (greedRandomSeedState 42) 60).1.is_fully_connected = true :=
  ⟨C9_pseudo_random_same_seed_deterministic 42 42 chipStraight chipStraight 20 60
    rfl rfl, by decide⟩

/-!  Pointwise descriptions of the occupancy mutations, used to show that
`IRRA_PR.restore_wire` restores the occupancy maps exactly. -/

theorem remove_from_occupancy_keys (o : Occupancy) (c : Coords) (w : ℕ) :
    (o.remove_from_occupancy c w).keys = o.keys := by
  unfold Occupancy.remove_from_occupancy
  split_ifs <;> rfl

theorem remove_from_occupancy_occ_ne (o : Occupancy) (c : Coords) (w : ℕ)
    (c' : Coords) (h : c' ≠ c) :
    (o.remove_from_occupancy c w).occupancy c' = o.occupancy c' := by
  unfold Occupancy.remove_from_occupancy
  split_ifs <;> simp [Occupancy.updateFun, h]

theorem remove_from_occupancy_wg_ne (o : Occupancy) (c : Coords) (w : ℕ)
    (c' : Coords) (h : c' ≠ c) :
    (o.remove_from_occupancy c w).occupancy_without_gates c' =
      o.occupancy_without_gates c' := by
  unfold Occupancy.remove_from_occupancy
  split_ifs <;> simp [Occupancy.updateFun, h]

theorem remove_from_occupancy_occ_self (o : Occupancy) (c : Coords) (w : ℕ) :
    (o.remove_from_occupancy c w).occupancy c =
      if o.occupancy c = ∅ ∨ Occupant.gate ∈ o.occupancy c then o.occupancy c
      else (o.occupancy c).erase (Occupant.wire w) := by
  unfold Occupancy.remove_from_occupancy
  split_ifs with h1 h2 h3 h3 <;> simp_all [Occupancy.updateFun]

theorem remove_from_occupancy_wg_self (o : Occupancy) (c : Coords) (w : ℕ) :
    (o.remove_from_occupancy c w).occupancy_without_gates c =
      if o.occupancy c = ∅ ∨ Occupant.gate ∈ o.occupancy c then
        o.occupancy_without_gates c
      else (o.occupancy_without_gates c).erase w := by
  unfold Occupancy.remove_from_occupancy
  split_ifs with h1 h2 h3 h3 <;> simp_all [Occupancy.updateFun]

/-- A gate cell is never touched by `remove_from_occupancy`. -/
theorem remove_from_occupancy_gate (o : Occupancy) (c : Coords) (w : ℕ)
    (h : Occupant.gate ∈ o.occupancy c) : o.remove_from_occupancy c w = o := by
  unfold Occupancy.remove_from_occupancy
  rw [if_neg, if_pos h]
  intro he
  rw [he] at h
  exact absurd h (Finset.not_mem_empty _)

theorem remove_wire_keys (w : ℕ) :
    ∀ (l : List Coords) (o : Occupancy),
      (o.remove_wire_from_occupancy l w).keys = o.keys := by
  intro l
  induction l with
  | nil => exact fun o => rfl
  | cons x xs ih =>
    intro o
    show ((o.remove_from_occupancy x w).remove_wire_from_occupancy xs w).keys = o.keys
    rw [ih, remove_from_occupancy_keys]

theorem remove_wire_occ (w : ℕ) :
    ∀ (l : List Coords) (o : Occupancy) (c : Coords), l.Nodup →
      (o.remove_wire_from_occupancy l w).occupancy c =
        if c ∈ l then
          (if o.occupancy c = ∅ ∨ Occupant.gate ∈ o.occupancy c then o.occupancy c
           else (o.occupancy c).erase (Occupant.wire w))
        else o.occupancy c := by
  intro l
  induction l with
  | nil => intro o c _; simp [Occupancy.remove_wire_from_occupancy]
  | cons x xs ih =>
    intro o c hnd
    obtain ⟨hx, hxs⟩ := List.nodup_cons.mp hnd
    show ((o.remove_from_occupancy x w).remove_wire_from_occupancy xs w).occupancy c = _
    rw [ih _ _ hxs]
    by_cases hc : c ∈ xs
    · have hne : c ≠ x := fun h => hx (h ▸ hc)
      rw [if_pos hc, if_pos (List.mem_cons_of_mem x hc),
        remove_from_occupancy_occ_ne _ _ _ _ hne]
    · rw [if_neg hc]
      by_cases hcx : c = x
      · subst hcx
        rw [if_pos (List.mem_cons_self c xs), remove_from_occupancy_occ_self]
      · rw [if_neg (by simp [hcx, hc]), remove_from_occupancy_occ_ne _ _ _ _ hcx]

theorem remove_wire_wg (w : ℕ) :
    ∀ (l : List Coords) (o : Occupancy) (c : Coords), l.Nodup →
      (o.remove_wire_from_occupancy l w).occupancy_without_gates c =
        if c ∈ l then
          (if o.occupancy c = ∅ ∨ Occupant.gate ∈ o.occupancy c then
             o.occupancy_without_gates c
           else (o.occupancy_without_gates c).erase w)
        else o.occupancy_without_gates c := by
  intro l
  induction l with
  | nil => intro o c _; simp [Occupancy.remove_wire_from_occupancy]
  | cons x xs ih =>
    intro o c hnd
    obtain ⟨hx, hxs⟩ := List.nodup_cons.mp hnd
    show ((o.remove_from_occupancy x w).remove_wire_from_occupancy xs w).occupancy_without_gates
      c = _
    rw [ih _ _ hxs]
    by_cases hc : c ∈ xs
    · have hne : c ≠ x := fun h => hx (h ▸ hc)
      rw [if_pos hc, if_pos (List.mem_cons_of_mem x hc),
        remove_from_occupancy_occ_ne _ _ _ _ hne,
        remove_from_occupancy_wg_ne _ _ _ _ hne]
    · rw [if_neg hc]
      by_cases hcx : c = x
      · subst hcx
        rw [if_pos (List.mem_cons_self c xs), remove_from_occupancy_wg_self]
      · rw [if_neg (by simp [hcx, hc]), remove_from_occupancy_wg_ne _ _ _ _ hcx]

theorem add_wire_occ (w : ℕ) :
    ∀ (l : List Coords) (o : Occupancy) (c : Coords),
      (o.add_wire l w).occupancy c =
        if c ∈ l then insert (Occupant.wire w) (o.occupancy c) else o.occupancy c := by
  intro l
  induction l with
  | nil => intro o c; simp [Occupancy.add_wire]
  | cons x xs ih =>
    intro o c
    show ((o.add_wire_segment x w).add_wire xs w).occupancy c = _
    rw [ih]
    have hstep : (o.add_wire_segment x w).occupancy c =
        if c = x then insert (Occupant.wire w) (o.occupancy c) else o.occupancy c := by
      unfold Occupancy.add_wire_segment Occupancy.updateFun
      by_cases hcx : c = x
      · subst hcx; simp
      · simp [hcx]
    by_cases hc : c ∈ xs
    · rw [if_pos hc, if_pos (List.mem_cons_of_mem x hc), hstep]
      by_cases hcx : c = x
      · rw [if_pos hcx, Finset.insert_idem]
      · rw [if_neg hcx]
    · rw [if_neg hc, hstep]
      by_cases hcx : c = x
      · rw [if_pos hcx, if_pos (by simp [hcx])]
      · rw [if_neg hcx, if_neg (by simp [hcx, hc])]

theorem add_wire_wg (w : ℕ) :
    ∀ (l : List Coords) (o : Occupancy) (c : Coords),
      (o.add_wire l w).occupancy_without_gates c =
        if c ∈ l then insert w (o.occupancy_without_gates c)
        else o.occupancy_without_gates c := by
  intro l
  induction l with
  | nil => intro o c; simp [Occupancy.add_wire]
  | cons x xs ih =>
    intro o c
    show ((o.add_wire_segment x w).add_wire xs w).occupancy_without_gates c = _
    rw [ih]
    have hstep : (o.add_wire_segment x w).occupancy_without_gates c =
        if c = x then insert w (o.occupancy_without_gates c)
        else o.occupancy_without_gates c := by
      unfold Occupancy.add_wire_segment Occupancy.updateFun
      by_cases hcx : c = x
      · subst hcx; simp
      · simp [hcx]
    by_cases hc : c ∈ xs
    · rw [if_pos hc, if_pos (List.mem_cons_of_mem x hc), hstep]
      by_cases hcx : c = x
      · rw [if_pos hcx, Finset.insert_idem]
      · rw [if_neg hcx]
    · rw [if_neg hc, hstep]
      by_cases hcx : c = x
      · rw [if_pos hcx, if_pos (by simp [hcx])]
      · rw [if_neg hcx, if_neg (by simp [hcx, hc])]

theorem add_wire_keys (w : ℕ) :
    ∀ (l : List Coords) (o : Occupancy),
      (o.add_wire l w).keys = o.keys ∪ l.toFinset := by
  intro l
  induction l with
  | nil => intro o; simp [Occupancy.add_wire]
  | cons x xs ih =>
    intro o
    show ((o.add_wire_segment x w).add_wire xs w).keys = _
    rw [ih]
    show insert x o.keys ∪ xs.toFinset = o.keys ∪ (x :: xs).toFinset
    rw [List.toFinset_cons]
    ext y
    simp only [Finset.mem_union, Finset.mem_insert]
    tauto


/-!  Reconstruction of `Wire.append_wire_segment` chains: appending the
interior of a duplicate-free adjacent path to a freshly reset wire extends
the segment list in order, each cell landing just before the second gate. -/

theorem are_points_neighbours_symm (a b : Coords) :
    are_points_neighbours a b = are_points_neighbours b a := by
  unfold are_points_neighbours manhattan_distance
  rw [show (a.1 - b.1).natAbs = (b.1 - a.1).natAbs by omega,
    show (a.2.1 - b.2.1).natAbs = (b.2.1 - a.2.1).natAbs by omega,
    show (a.2.2 - b.2.2).natAbs = (b.2.2 - a.2.2).natAbs by omega]

theorem secondLast_concat (xs : List Coords) (y : Coords) (h : xs ≠ []) :
    WireObj.secondLast (xs ++ [y]) = xs.getLast h := by
  have hl : 1 ≤ xs.length := List.length_pos.mpr h
  unfold WireObj.secondLast
  rw [List.length_append]
  show (xs ++ [y]).getD (xs.length + 1 - 2) default = _
  rw [show xs.length + 1 - 2 = xs.length - 1 by omega,
    List.getD_append _ _ _ _ (by omega),
    List.getD_eq_getElem _ _ (by omega)]
  exact (List.getLast_eq_getElem xs h).symm

theorem insertBeforeLast_concat (xs : List Coords) (y c : Coords) :
    WireObj.insertBeforeLast (xs ++ [y]) c = xs ++ [c, y] := by
  unfold WireObj.insertBeforeLast
  rw [List.length_append]
  show (xs ++ [y]).take (xs.length + 1 - 1) ++ c :: (xs ++ [y]).drop (xs.length + 1 - 1) = _
  rw [show xs.length + 1 - 1 = xs.length by omega, List.take_left, List.drop_left]

theorem append_list_reconstruct (g1 g2 : Coords) :
    ∀ (p acc : List Coords),
      (∀ c ∈ p, ¬(c = g1 ∨ c = g2)) →
      List.Chain' (fun a b => are_points_neighbours a b = true) (g1 :: (acc ++ p)) →
      WireObj.append_wire_segment_list ⟨g1, g2, (g1 :: acc) ++ [g2]⟩ p =
        ⟨g1, g2, (g1 :: (acc ++ p)) ++ [g2]⟩ := by
  intro p
  induction p with
  | nil => intro acc _ _; simp [WireObj.append_wire_segment_list]
  | cons c rest ih =>
    intro acc hnotg hch
    have hc := hnotg c (List.mem_cons_self c rest)
    have hne : (g1 :: acc) ≠ [] := List.cons_ne_nil _ _
    have hadj : are_points_neighbours ((g1 :: acc).getLast hne) c = true := by
      have hch' : List.Chain' (fun a b => are_points_neighbours a b = true)
          ((g1 :: acc) ++ (c :: rest)) := hch
      exact (List.chain'_append.mp hch').2.2 _
        (by rw [List.getLast?_eq_getLast _ hne]; rfl) c rfl
    have hstep : WireObj.append_wire_segment ⟨g1, g2, (g1 :: acc) ++ [g2]⟩ c =
        ⟨g1, g2, (g1 :: (acc ++ [c])) ++ [g2]⟩ := by
      unfold WireObj.append_wire_segment
      dsimp only
      rw [if_neg hc, secondLast_concat _ _ hne]
      have hadj' : are_points_neighbours c ((g1 :: acc).getLast hne) = true := by
        rw [are_points_neighbours_symm]; exact hadj
      rw [if_pos hadj',
        show WireObj.insertBeforeLast (g1 :: acc ++ [g2]) c = (g1 :: acc) ++ [c, g2] from
          insertBeforeLast_concat (g1 :: acc) g2 c]
      simp
    show List.foldl WireObj.append_wire_segment _ (c :: rest) = _
    rw [List.foldl_cons, hstep]
    have hre : (acc ++ [c]) ++ rest = acc ++ (c :: rest) := by simp
    have hch2 : List.Chain' (fun a b => are_points_neighbours a b = true)
        (g1 :: ((acc ++ [c]) ++ rest)) := by rw [hre]; exact hch
    have hmain := ih (acc ++ [c])
      (fun d hd => hnotg d (List.mem_cons_of_mem c hd)) hch2
    rw [hre] at hmain
    exact hmain

/-- Appending a gate-to-gate coordinate list to a freshly reset wire (as
`IRRA_PR.restore_wire` does) reproduces the list exactly: the two gate
cells are skipped and the interior is rebuilt in order. -/
theorem append_full_reconstruct (g1 g2 : Coords) (interior : List Coords)
    (hno : ∀ c ∈ interior, ¬(c = g1 ∨ c = g2))
    (hch : List.Chain' (fun a b => are_points_neighbours a b = true) (g1 :: interior)) :
    WireObj.append_wire_segment_list ⟨g1, g2, [g1, g2]⟩ (g1 :: interior ++ [g2]) =
      ⟨g1, g2, (g1 :: interior) ++ [g2]⟩ := by
  show List.foldl WireObj.append_wire_segment _ (g1 :: (interior ++ [g2])) = _
  rw [List.foldl_cons]
  have h1 : WireObj.append_wire_segment ⟨g1, g2, [g1, g2]⟩ g1 = ⟨g1, g2, [g1, g2]⟩ := by
    unfold WireObj.append_wire_segment
    rw [if_pos (Or.inl rfl)]
  rw [h1, List.foldl_append]
  have h2 : List.foldl WireObj.append_wire_segment ⟨g1, g2, [g1, g2]⟩ interior =
      ⟨g1, g2, (g1 :: interior) ++ [g2]⟩ := by
    have := append_list_reconstruct g1 g2 interior [] hno hch
    exact this
  rw [h2]
  show WireObj.append_wire_segment _ g2 = _
  unfold WireObj.append_wire_segment
  rw [if_pos (Or.inr rfl)]

theorem setWire_arena_length (s : ChipState) (i : ℕ) (w : WireObj) :
    (s.setWire i w).arena.length = s.arena.length := by
  simp [ChipState.setWire]

theorem setWire_wireAt_self (s : ChipState) (i : ℕ) (w : WireObj)
    (h : i < s.arena.length) : (s.setWire i w).wireAt i = w := by
  unfold ChipState.setWire ChipState.wireAt
  dsimp only
  rw [List.getD_eq_getElem?_getD, List.getElem?_set_self (by omega)]
  rfl

theorem pathInterior_ne_nil_len {raw : List Coords} (h : pathInterior raw ≠ []) :
    2 < raw.length := by
  by_contra h2
  exact h (by unfold pathInterior; rw [if_neg h2])

theorem pathInterior_eq {raw : List Coords} (h2 : 2 < raw.length) :
    pathInterior raw = (raw.drop 1).dropLast := if_pos h2

/-- Decomposition of a nonempty-interior path into head, interior and last
cell. -/
theorem raw_shape {raw : List Coords} {a b : Coords}
    (hh : raw.head? = some a) (hl : raw.getLast? = some b) (h2 : 2 < raw.length) :
    raw = a :: ((raw.drop 1).dropLast ++ [b]) := by
  match raw, hh with
  | x :: xs, hh =>
    have hx : x = a := by simpa using hh
    subst hx
    show x :: xs = x :: (((x :: xs).drop 1).dropLast ++ [b])
    rw [show (x :: xs).drop 1 = xs from rfl]
    have hxs : xs ≠ [] := by
      intro h
      subst h
      simp at h2
    have hlast : xs.getLast hxs = b := by
      have h1 : (x :: xs).getLast? = some (xs.getLast hxs) := by
        rw [List.getLast?_eq_getLast _ (List.cons_ne_nil _ _)]
        rw [List.getLast_cons hxs]
      rw [hl] at h1
      exact (Option.some.inj h1).symm
    rw [← hlast]
    exact congrArg (x :: ·) (List.dropLast_append_getLast hxs).symm

/-!  Behaviour of `IRRA_PR.reroute_wire` with simulated annealing
disabled. -/

theorem rerouteRemoveReset_arena_length (s : ChipState) (i : ℕ) :
    (rerouteRemoveReset s i).arena.length = s.arena.length := by
  unfold rerouteRemoveReset
  exact setWire_arena_length _ _ _

theorem rerouteRemoveReset_wireAt (s : ChipState) (i : ℕ) (h : i < s.arena.length) :
    (rerouteRemoveReset s i).wireAt i =
      ⟨(s.wireAt i).gate1, (s.wireAt i).gate2,
        [(s.wireAt i).gate1, (s.wireAt i).gate2]⟩ := by
  unfold rerouteRemoveReset
  exact setWire_wireAt_self _ _ _ h

theorem rerouteRemoveReset_occupancy (s : ChipState) (i : ℕ) :
    (rerouteRemoveReset s i).occupancy =
      s.occupancy.remove_wire_from_occupancy (s.wireAt i).coords_wire_segments i := rfl

/-- With `simulated_annealing = False` the body of `reroute_wire` reduces
to the plain BFS attempt: commit on a truthy path, restore otherwise. -/
theorem reroute_wire_no_sa (s : ChipState) (i off : ℕ) (temperature : ℚ)
    (saAccept : ℤ → ℤ → ℚ → ℕ → Bool × ℕ) (rng fuel : ℕ) :
    reroute_wire s i off false temperature saAccept rng fuel =
      (match (match bfs_route (rerouteRemoveReset s i) (s.wireAt i).gate1
              (s.wireAt i).gate2 off false fuel with
          | some r => r
          | none => none) with
       | some p =>
         if p ≠ [] then (true, add_new_path (rerouteRemoveReset s i) i p, rng)
         else (false, restore_wire (rerouteRemoveReset s i) i
           (s.wireAt i).coords_wire_segments, rng)
       | none => (false, restore_wire (rerouteRemoveReset s i) i
           (s.wireAt i).coords_wire_segments, rng)) := by
  unfold reroute_wire
  dsimp only
  rw [if_neg (by simp)]

/-- `IRRA_PR.restore_wire`, applied after the removal step of
`reroute_wire`, restores the wire's segment list and both occupancy maps
exactly (for a well-formed registered wire whose endpoints are gate
cells). -/
theorem restore_after_remove (s : ChipState) (i : ℕ)
    (g1 g2 : Coords) (interior : List Coords)
    (hi : i < s.arena.length)
    (hg1 : (s.wireAt i).gate1 = g1) (hg2 : (s.wireAt i).gate2 = g2)
    (hold : (s.wireAt i).coords_wire_segments = g1 :: interior ++ [g2])
    (hnodup : (g1 :: interior ++ [g2]).Nodup)
    (hchain : List.Chain' (fun a b => are_points_neighbours a b = true)
      (g1 :: interior ++ [g2]))
    (hgate1 : Occupant.gate ∈ s.occupancy.occupancy g1)
    (hgate2 : Occupant.gate ∈ s.occupancy.occupancy g2)
    (hw1 : Occupant.wire i ∈ s.occupancy.occupancy g1)
    (hw1' : i ∈ s.occupancy.occupancy_without_gates g1)
    (hw2 : Occupant.wire i ∈ s.occupancy.occupancy g2)
    (hw2' : i ∈ s.occupancy.occupancy_without_gates g2)
    (hint : ∀ c ∈ interior, Occupant.gate ∉ s.occupancy.occupancy c ∧
      Occupant.wire i ∈ s.occupancy.occupancy c ∧
      i ∈ s.occupancy.occupancy_without_gates c)
    (hkeys : ∀ c ∈ g1 :: interior ++ [g2], c ∈ s.occupancy.keys) :
    ((restore_wire (rerouteRemoveReset s i) i (g1 :: interior ++ [g2])).wireAt
        i).coords_wire_segments = g1 :: interior ++ [g2] ∧
    (∀ c, (restore_wire (rerouteRemoveReset s i) i
        (g1 :: interior ++ [g2])).occupancy.occupancy c = s.occupancy.occupancy c) ∧
    (∀ c, (restore_wire (rerouteRemoveReset s i) i
        (g1 :: interior ++ [g2])).occupancy.occupancy_without_gates c =
      s.occupancy.occupancy_without_gates c) ∧
    (restore_wire (rerouteRemoveReset s i) i
        (g1 :: interior ++ [g2])).occupancy.keys = s.occupancy.keys := by
  have harena2 : (rerouteRemoveReset s i).arena.length = s.arena.length :=
    rerouteRemoveReset_arena_length s i
  have hw2at : (rerouteRemoveReset s i).wireAt i = ⟨g1, g2, [g1, g2]⟩ := by
    rw [rerouteRemoveReset_wireAt s i hi, hg1, hg2]
  have hocc2 : (rerouteRemoveReset s i).occupancy =
      s.occupancy.remove_wire_from_occupancy (g1 :: interior ++ [g2]) i := by
    rw [rerouteRemoveReset_occupancy, hold]
  have hga1 : Occupant.gate ∈ (rerouteRemoveReset s i).occupancy.occupancy g1 := by
    rw [hocc2, remove_wire_occ i _ _ _ hnodup,
      if_pos (show g1 ∈ g1 :: interior ++ [g2] from List.mem_cons_self _ _),
      if_pos (Or.inr hgate1)]
    exact hgate1
  have hga2 : Occupant.gate ∈ (rerouteRemoveReset s i).occupancy.occupancy g2 := by
    rw [hocc2, remove_wire_occ i _ _ _ hnodup,
      if_pos (show g2 ∈ g1 :: interior ++ [g2] by simp), if_pos (Or.inr hgate2)]
    exact hgate2
  have hremoveeq : (rerouteRemoveReset s i).occupancy.remove_wire_from_occupancy
      ((rerouteRemoveReset s i).wireAt i).coords_wire_segments i =
      (rerouteRemoveReset s i).occupancy := by
    rw [hw2at]
    show (((rerouteRemoveReset s i).occupancy.remove_from_occupancy g1
      i).remove_from_occupancy g2 i) = _
    rw [remove_from_occupancy_gate _ _ _ hga1, remove_from_occupancy_gate _ _ _ hga2]
  have hs'occ : ((rerouteRemoveReset s i).reset_wire i).occupancy =
      (rerouteRemoveReset s i).occupancy := hremoveeq
  have hs'arena : ((rerouteRemoveReset s i).reset_wire i).arena.length =
      s.arena.length := by
    show (((rerouteRemoveReset s i).remove_wire_from_occupancy i).setWire i
      _).arena.length = _
    rw [setWire_arena_length]
    exact harena2
  have hs'wire : ((rerouteRemoveReset s i).reset_wire i).wireAt i =
      ⟨g1, g2, [g1, g2]⟩ := by
    show (((rerouteRemoveReset s i).remove_wire_from_occupancy i).setWire i
      (((rerouteRemoveReset s i).remove_wire_from_occupancy i).wireAt i).reset).wireAt
      i = _
    rw [setWire_wireAt_self _ _ _ (show i <
      ((rerouteRemoveReset s i).remove_wire_from_occupancy i).arena.length by
        rw [show ((rerouteRemoveReset s i).remove_wire_from_occupancy i).arena.length =
          (rerouteRemoveReset s i).arena.length from rfl, harena2]
        exact hi)]
    rw [show ((rerouteRemoveReset s i).remove_wire_from_occupancy i).wireAt i =
      (rerouteRemoveReset s i).wireAt i from rfl, hw2at]
    rfl
  have hno : ∀ c ∈ interior, ¬(c = g1 ∨ c = g2) := by
    intro c hc h
    cases h with
    | inl h1 =>
      subst h1
      exact (List.nodup_cons.mp hnodup).1 (List.mem_append_left _ hc)
    | inr h2 =>
      subst h2
      exact (List.nodup_append.mp (List.nodup_cons.mp hnodup).2).2.2 hc
        (List.mem_singleton_self _)
  have hchain' : List.Chain' (fun a b => are_points_neighbours a b = true)
      ((g1 :: interior) ++ [g2]) := hchain
  have happ : WireObj.append_wire_segment_list ⟨g1, g2, [g1, g2]⟩
      (g1 :: interior ++ [g2]) = ⟨g1, g2, (g1 :: interior) ++ [g2]⟩ :=
    append_full_reconstruct g1 g2 interior hno (List.chain'_append.mp hchain').1
  have h1 : (restore_wire (rerouteRemoveReset s i) i
      (g1 :: interior ++ [g2])).wireAt i =
      (((rerouteRemoveReset s i).reset_wire i).wireAt i).append_wire_segment_list
        (g1 :: interior ++ [g2]) := by
    show ((((rerouteRemoveReset s i).reset_wire i).setWire i
      ((((rerouteRemoveReset s i).reset_wire i).wireAt i).append_wire_segment_list
        (g1 :: interior ++ [g2]))).wireAt i) = _
    exact setWire_wireAt_self _ _ _ (by rw [hs'arena]; exact hi)
  have h2 : (restore_wire (rerouteRemoveReset s i) i
      (g1 :: interior ++ [g2])).occupancy =
      (s.occupancy.remove_wire_from_occupancy (g1 :: interior ++ [g2]) i).add_wire
        (g1 :: interior ++ [g2]) i := by
    show (((rerouteRemoveReset s i).reset_wire i).occupancy).add_wire
      (g1 :: interior ++ [g2]) i = _
    rw [hs'occ, hocc2]
  refine ⟨?_, ?_, ?_, ?_⟩
  · rw [h1, hs'wire, happ]
  · intro c
    rw [h2, add_wire_occ, remove_wire_occ i _ _ _ hnodup]
    by_cases hc : c ∈ g1 :: interior ++ [g2]
    · rw [if_pos hc, if_pos hc]
      rcases (show c = g1 ∨ c ∈ interior ∨ c = g2 by simpa using hc) with h | h | h
      · subst h
        rw [if_pos (Or.inr hgate1)]
        exact Finset.insert_eq_self.mpr hw1
      · obtain ⟨hig, hiw, -⟩ := hint c h
        rw [if_neg (by
          simp only [not_or]
          exact ⟨Finset.ne_empty_of_mem hiw, hig⟩)]
        exact Finset.insert_erase hiw
      · subst h
        rw [if_pos (Or.inr hgate2)]
        exact Finset.insert_eq_self.mpr hw2
    · rw [if_neg hc, if_neg hc]
  · intro c
    rw [h2, add_wire_wg, remove_wire_wg i _ _ _ hnodup]
    by_cases hc : c ∈ g1 :: interior ++ [g2]
    · rw [if_pos hc, if_pos hc]
      rcases (show c = g1 ∨ c ∈ interior ∨ c = g2 by simpa using hc) with h | h | h
      · subst h
        rw [if_pos (Or.inr hgate1)]
        exact Finset.insert_eq_self.mpr hw1'
      · obtain ⟨hig, hiw, hiwg⟩ := hint c h
        rw [if_neg (by
          simp only [not_or]
          exact ⟨Finset.ne_empty_of_mem hiw, hig⟩)]
        exact Finset.insert_erase hiwg
      · subst h
        rw [if_pos (Or.inr hgate2)]
        exact Finset.insert_eq_self.mpr hw2'
    · rw [if_neg hc, if_neg hc]
  · rw [h2, add_wire_keys, remove_wire_keys]
    refine Finset.union_eq_left.mpr fun x hx => hkeys x (List.mem_toFinset.mp hx)

/-- A nonempty interior returned by `bfs_route` avoids both endpoints and
is 6-connected when prefixed with the start cell. -/
theorem bfs_route_path_facts {s : ChipState} {start end_ : Coords}
    {offset fuel : ℕ} {asc : Bool} {q : List Coords}
    (hres : bfs_route s start end_ offset asc fuel = some (some q)) (hq : q ≠ []) :
    (∀ c ∈ q, ¬(c = start ∨ c = end_)) ∧
    List.Chain' (fun a b => are_points_neighbours a b = true) (start :: q) := by
  unfold bfs_route at hres
  have hinit : ∀ e ∈ [(start, [start])],
      BfsEntryInv s start end_ (manhattan_distance start end_ + offset)
        ({start} : Finset Coords) e := by
    intro e he
    rw [List.mem_singleton.mp he]
    refine ⟨by simp, rfl, rfl, List.nodup_singleton _, List.chain'_singleton _,
      by simp, by simp, by simp⟩
  obtain ⟨raw, hh, hl, hnd, hch, -, -, hp⟩ :=
    bfsRouteLoop_sound fuel [(start, [start])] {start} q hinit hres
  have h2 : 2 < raw.length := pathInterior_ne_nil_len (by rw [← hp]; exact hq)
  have hq' : q = (raw.drop 1).dropLast := by rw [hp, pathInterior_eq h2]
  have hraw : raw = start :: (q ++ [end_]) := by
    rw [hq']
    exact raw_shape hh hl h2
  rw [hraw] at hnd hch
  have hnd2 := List.nodup_cons.mp hnd
  have hdisj := (List.nodup_append.mp hnd2.2).2.2
  constructor
  · intro c hc h
    cases h with
    | inl h1 => subst h1; exact hnd2.1 (List.mem_append_left _ hc)
    | inr h1 => subst h1; exact hdisj hc (List.mem_singleton_self _)
  · have hch2 : List.Chain' (fun a b => are_points_neighbours a b = true)
        ((start :: q) ++ [end_]) := hch
    exact (List.chain'_append.mp hch2).1

/-- Claim C7 (amended): in IRRA rerouting with simulated annealing
disabled, whenever the no-short-circuit bounded BFS finds a path with a
nonempty interior, `reroute_wire` commits it *unconditionally* — no cost
or intersection-count condition is consulted — and the wire's segment
list becomes start-gate, interior, end-gate; when the BFS fails or
returns an empty interior (Python falsy), the call reports no commit and
restores the wire's prior segment list and both occupancy maps exactly. -/
theorem C7_reroute_commits_unconditionally_and_restores
    (s : ChipState) (i off : ℕ) (temperature : ℚ)
    (saAccept : ℤ → ℤ → ℚ → ℕ → Bool × ℕ) (rng fuel : ℕ)
    (g1 g2 : Coords) (interior : List Coords)
    (hi : i < s.arena.length)
    (hg1 : (s.wireAt i).gate1 = g1) (hg2 : (s.wireAt i).gate2 = g2)
    (hold : (s.wireAt i).coords_wire_segments = g1 :: interior ++ [g2])
    (hnodup : (g1 :: interior ++ [g2]).Nodup)
    (hchain : List.Chain' (fun a b => are_points_neighbours a b = true)
      (g1 :: interior ++ [g2]))
    (hgate1 : Occupant.gate ∈ s.occupancy.occupancy g1)
    (hgate2 : Occupant.gate ∈ s.occupancy.occupancy g2)
    (hw1 : Occupant.wire i ∈ s.occupancy.occupancy g1)
    (hw1' : i ∈ s.occupancy.occupancy_without_gates g1)
    (hw2 : Occupant.wire i ∈ s.occupancy.occupancy g2)
    (hw2' : i ∈ s.occupancy.occupancy_without_gates g2)
    (hint : ∀ c ∈ interior, Occupant.gate ∉ s.occupancy.occupancy c ∧
      Occupant.wire i ∈ s.occupancy.occupancy c ∧
      i ∈ s.occupancy.occupancy_without_gates c)
    (hkeys : ∀ c ∈ g1 :: interior ++ [g2], c ∈ s.occupancy.keys) :
    (∀ q : List Coords,
      bfs_route (rerouteRemoveReset s i) g1 g2 off false fuel = some (some q) →
      q ≠ [] →
        (reroute_wire s i off false temperature saAccept rng fuel).1 = true ∧
        ((reroute_wire s i off false temperature saAccept rng
          fuel).2.1.wireAt i).coords_wire_segments = g1 :: q ++ [g2]) ∧
    (∀ r : Option (List Coords),
      bfs_route (rerouteRemoveReset s i) g1 g2 off false fuel = some r →
      (r = none ∨ r = some []) →
        (reroute_wire s i off false temperature saAccept rng fuel).1 = false ∧
        ((reroute_wire s i off false temperature saAccept rng
          fuel).2.1.wireAt i).coords_wire_segments = g1 :: interior ++ [g2] ∧
        (∀ c, (reroute_wire s i off false temperature saAccept rng
          fuel).2.1.occupancy.occupancy c = s.occupancy.occupancy c) ∧
        (∀ c, (reroute_wire s i off false temperature saAccept rng
          fuel).2.1.occupancy.occupancy_without_gates c =
            s.occupancy.occupancy_without_gates c) ∧
        (reroute_wire s i off false temperature saAccept rng
          fuel).2.1.occupancy.keys = s.occupancy.keys) := by
  have heq := reroute_wire_no_sa s i off temperature saAccept rng fuel
  rw [hg1, hg2, hold] at heq
  constructor
  · intro q hbfs hq
    obtain ⟨hno_q, hch_q⟩ := bfs_route_path_facts hbfs hq
    rw [heq, hbfs]
    dsimp only
    rw [if_pos hq]
    refine ⟨rfl, ?_⟩
    have hw2at : (rerouteRemoveReset s i).wireAt i = ⟨g1, g2, [g1, g2]⟩ := by
      rw [rerouteRemoveReset_wireAt s i hi, hg1, hg2]
    have h1 : (add_new_path (rerouteRemoveReset s i) i q).wireAt i =
        ((rerouteRemoveReset s i).wireAt i).append_wire_segment_list q := by
      show ((rerouteRemoveReset s i).setWire i
        (((rerouteRemoveReset s i).wireAt i).append_wire_segment_list q)).wireAt
        i = _
      exact setWire_wireAt_self _ _ _
        (by rw [rerouteRemoveReset_arena_length]; exact hi)
    rw [h1, hw2at]
    have happ := append_list_reconstruct g1 g2 q [] hno_q (by simpa using hch_q)
    simp only [List.nil_append, List.cons_append] at happ
    rw [happ]
    rfl
  · intro r hbfs hcase
    have hrest := restore_after_remove s i g1 g2 interior hi hg1 hg2 hold hnodup
      hchain hgate1 hgate2 hw1 hw1' hw2 hw2' hint hkeys
    cases hcase with
    | inl h =>
      subst h
      rw [heq, hbfs]
      exact ⟨rfl, hrest.1, hrest.2.1, hrest.2.2.1, hrest.2.2.2⟩
    | inr h =>
      subst h
      rw [heq, hbfs]
      dsimp only
      rw [if_neg (fun hne => hne rfl)]
      exact ⟨rfl, hrest.1, hrest.2.1, hrest.2.2.1, hrest.2.2.2⟩

/-- Counterexample to C7 as stated: on the detour chip the BFS reroute
finds the straight path and `reroute_wire` commits it even though the
wire intersection count is *not* reduced (it stays 0); the source tests
no intersection condition at all. -/
theorem C7_counterexample :
    (reroute_wire chipDetour 0 2 false 0 alwaysAcceptOracle 0 100).1 = true ∧
    (reroute_wire chipDetour 0 2 false 0 alwaysAcceptOracle 0
      100).2.1.get_wire_intersect_amount = chipDetour.get_wire_intersect_amount ∧
    ((reroute_wire chipDetour 0 2 false 0 alwaysAcceptOracle 0 100).2.1.wireAt
      0).coords_wire_segments ≠ (chipDetour.wireAt 0).coords_wire_segments := by
  decide

/-- Witness for C7 on the detour chip: the BFS finds the interior
`[(1,0,0)]` and the reroute commits it, the wire becoming the straight
gate-to-gate path. -/
theorem C7_reroute_witness :
    (reroute_wire chipDetour 0 2 false 0 alwaysAcceptOracle 0 100).1 = true ∧
    ((reroute_wire chipDetour 0 2 false 0 alwaysAcceptOracle 0 100).2.1.wireAt
      0).coords_wire_segments =
      ((0:ℤ), (0:ℤ), (0:ℤ)) :: [((1:ℤ), (0:ℤ), (0:ℤ))] ++ [((2:ℤ), (0:ℤ), (0:ℤ))] :=
  (C7_reroute_commits_unconditionally_and_restores chipDetour 0 2 0
    alwaysAcceptOracle 0 100 ((0:ℤ), (0:ℤ), (0:ℤ)) ((2:ℤ), (0:ℤ), (0:ℤ))
    [((0:ℤ), (1:ℤ), (0:ℤ)), ((1:ℤ), (1:ℤ), (0:ℤ)), ((2:ℤ), (1:ℤ), (0:ℤ))]
    (by decide) (by decide) (by decide) (by decide) (by decide)
    (by rw [List.chain'_iff_get]; decide)
    (by decide) (by decide) (by decide) (by decide) (by decide) (by decide)
    (by decide) (by decide)).1
    [((1:ℤ), (0:ℤ), (0:ℤ))] (by decide) (by decide)
